import Mathlib

/-!
Shallow embedding of `src/takiyasha/algorithms/qmc/ciphers.py` and proofs
about its five ciphers: the TEA block cipher (`QMC_TEACipher`), the chained
TEA envelope cipher (`TC_TEACipher`), the static and dynamic XOR mask
ciphers (`QMCv1_StaticMapCipher`, `QMCv2_DynamicMapCipher`) and the
segmented RC4 cipher (`QMCv2_RC4Cipher`).

Byte strings are modelled as `List Nat` (each element a byte value).
Python exceptions are modelled with `Except PyErr`.  Machine arithmetic
follows Python semantics: integers are unbounded, `x & 0xffffffff` reduces
modulo `2 ^ 32` (Python ints are signed, so subtraction before the mask is
modelled through `Int`).
-/

deriving instance DecidableEq for Except

/-- The failure modes of the Python code: `struct.error` from
`BE_Uint32.unpack` on a slice that is not exactly 4 bytes, the
`DecryptionError` variants raised by `TC_TEACipher.decrypt`, `IndexError`
from indexing a too-short bytes object, `ValueError` from `strxor` on
buffers of different lengths, `ZeroDivisionError` from
`QMCv2_RC4Cipher._get_segment_skip`, `CipherGenerationError` from the
constructors, and an artificial `fuelOut` marker used by the fueled
renderings of the Python `while` loops (proved unreachable where needed). -/
inductive PyErr where
  | structError
  | sizeNotMultiple
  | sizeTooSmall
  | invalidPadLen
  | indexError
  | strxorError
  | zeroCheckFailed
  | zeroDiv
  | cipherGen
  | fuelOut
deriving DecidableEq, Repr

/-- Python indexing `l[i]` on a bytes object: `IndexError` when out of range. -/
def pyIndex (l : List Nat) (i : Nat) : Except PyErr Nat :=
  match l.get? i with
  | some v => Except.ok v
  | none => Except.error PyErr.indexError

/-- `Cryptodome.Util.strxor.strxor`: bytewise xor, `ValueError` when the two
buffers have different lengths. -/
def pyStrxor (a b : List Nat) : Except PyErr (List Nat) :=
  if a.length = b.length then Except.ok (List.zipWith (· ^^^ ·) a b)
  else Except.error PyErr.strxorError

/-- Bytewise xor of two equally long buffers, used to state keystream
properties.  Truncates at the shorter list. -/
def zipXor : List Nat → List Nat → List Nat
  | [], _ => []
  | _, [] => []
  | a :: as', b :: bs' => (a ^^^ b) :: zipXor as' bs'

/-! ### A model of the CPython float expression `int(h / d * 100)`

`QMCv2_RC4Cipher._get_segment_skip` computes `int(self.hash / ((v + 1) *
seed) * 100)` with Python's true division, i.e. IEEE-754 binary64
arithmetic.  CPython divides the two integers with correct rounding to
nearest/ties-to-even at 53 significant bits, multiplies by 100 (again
correctly rounded) and truncates.  The model below reproduces exactly that
for positive values in the binary64 normal range (overflow and subnormals
cannot be hit for the magnitudes produced by the cipher, whose `hash` is a
32-bit value). -/

/-- The binary length of a natural number (`0` for `0`), written with an
explicit fuel so that the kernel can evaluate it (the fuel `n` strictly
dominates the bit count of `n`). -/
def bitLenAux : Nat → Nat → Nat
  | 0, _ => 0
  | fuel + 1, n => if n = 0 then 0 else bitLenAux fuel (n / 2) + 1

/-- Bit length of `n`: the least `k` with `n < 2 ^ k`. -/
def bitLen (n : Nat) : Nat := bitLenAux n n

/-- Round the rational `n / m` (`m ≠ 0`) to 53 significant bits, round to
nearest, ties to even.  Returns `(mant, e)` with the rounded value equal to
`mant * 2 ^ e`; for `n ≠ 0` the mantissa is normalized to `[2^52, 2^53)`. -/
def rnDiv53 (n m : Nat) : Nat × Int :=
  let t := 54 + bitLen m
  let N := n <<< t
  let Q := N / m
  let R := N % m
  let qb := bitLen Q
  let k := qb - 53
  let mant0 := Q >>> k
  let low := Q % 2 ^ k
  let half := 2 ^ (k - 1)
  let roundUp :=
    if k = 0 then 2 * R > m ∨ (2 * R = m ∧ mant0 % 2 = 1)
    else low > half ∨ (low = half ∧ (R ≠ 0 ∨ mant0 % 2 = 1))
  let mant1 := if roundUp then mant0 + 1 else mant0
  if mant1 = 2 ^ 53 then (2 ^ 52, (k : Int) - t + 1) else (mant1, (k : Int) - t)

/-- Multiply the binary64 value `mant * 2 ^ e` by 100 with correct rounding
at 53 bits, then truncate to an integer (Python `int(...)` on a positive
float). -/
def fmul100Floor (mant : Nat) (e : Int) : Nat :=
  let x := mant * 100
  let xb := bitLen x
  let k := xb - 53
  let low := x % 2 ^ k
  let half := 2 ^ (k - 1)
  let x0 := x >>> k
  let roundUp := low > half ∨ (low = half ∧ x0 % 2 = 1)
  let m2 := if roundUp then x0 + 1 else x0
  let e2 := e + k
  let p := if m2 = 2 ^ 53 then (2 ^ 52, e2 + 1) else (m2, e2)
  if 0 ≤ p.2 then p.1 <<< p.2.toNat else p.1 >>> (-p.2).toNat

/-- Python `int(h / d * 100)` for nonnegative `h` and positive `d`. -/
def pyDivMul100Floor (h d : Nat) : Nat :=
  let me := rnDiv53 h d
  fmul100Floor me.1 me.2

/-! ### TEA core (`QMC_TEACipher` / `TC_TEACipher.original_tea_decrypt`) -/

/-- Python `(a - b) & 0xffffffff` for a nonnegative `a` and arbitrary
nonnegative `b` (Python ints are unbounded and signed, the mask reduces the
possibly negative difference modulo `2 ^ 32`). -/
def pySub32 (a b : Nat) : Nat :=
  (((a : Int) - (b : Int)) % (4294967296 : Int)).toNat

/-- `struct.Struct('>L').unpack(l)[0]`: big-endian 32-bit word from exactly
4 bytes; `struct.error` otherwise. -/
def unpackBE4 (l : List Nat) : Except PyErr Nat :=
  match l with
  | [a, b, c, d] => Except.ok (a * 16777216 + b * 65536 + c * 256 + d)
  | _ => Except.error PyErr.structError

/-- `_put_uint32`: big-endian 4-byte encoding of a 32-bit word. -/
def put32 (v : Nat) : List Nat :=
  [(v >>> 24) % 256, (v >>> 16) % 256, (v >>> 8) % 256, v % 256]

/-- `_get_values_from_src_data`: unpack `v0, v1` from the first 8 bytes of
`src` and `k0..k3` from the 16-byte key (shared verbatim by
`QMC_TEACipher` and `TC_TEACipher`). -/
def teaGetValues (key src : List Nat) :
    Except PyErr (Nat × Nat × Nat × Nat × Nat × Nat) := do
  let v0 ← unpackBE4 (src.take 4)
  let v1 ← unpackBE4 ((src.drop 4).take 4)
  let k0 ← unpackBE4 (key.take 4)
  let k1 ← unpackBE4 ((key.drop 4).take 4)
  let k2 ← unpackBE4 ((key.drop 8).take 4)
  let k3 ← unpackBE4 (key.drop 12)
  Except.ok (v0, v1, k0, k1, k2, k3)

/-- One TEA mixing expression
`((v << 4) + ka) ^ (v + sum) ^ ((v >> 5) + kb)` (no masking in the source:
Python ints are unbounded, the caller masks after add/subtract). -/
def teaMix (v ka kb sum : Nat) : Nat :=
  ((v <<< 4) + ka) ^^^ (v + sum) ^^^ ((v >>> 5) + kb)

/-- The decryption round loop of `QMC_TEACipher.decrypt` /
`TC_TEACipher.original_tea_decrypt`: state is `(v0, v1, ciphersum)`, each
iteration updates `v1`, then `v0`, then decrements `ciphersum` by `delta`,
all masked to 32 bits. -/
def teaDecLoop (k0 k1 k2 k3 delta : Nat) : Nat → Nat × Nat × Nat → Nat × Nat × Nat
  | 0, st => st
  | n + 1, (v0, v1, sum) =>
    let v1' := pySub32 v1 (teaMix v0 k2 k3 sum)
    let v0' := pySub32 v0 (teaMix v1' k0 k1 sum)
    let sum' := pySub32 sum delta
    teaDecLoop k0 k1 k2 k3 delta n (v0', v1', sum')

/-- The encryption round loop of `QMC_TEACipher.encrypt`: each iteration
increments `ciphersum` by `delta`, then updates `v0`, then `v1`, all masked
to 32 bits. -/
def teaEncLoop (k0 k1 k2 k3 delta : Nat) : Nat → Nat × Nat × Nat → Nat × Nat × Nat
  | 0, st => st
  | n + 1, (v0, v1, sum) =>
    let sum' := (sum + delta) % 4294967296
    let v0' := (v0 + teaMix v1 k0 k1 sum') % 4294967296
    let v1' := (v1 + teaMix v0' k2 k3 sum') % 4294967296
    teaEncLoop k0 k1 k2 k3 delta n (v0', v1', sum')

/-- One iteration of the encryption loop, as a function of the whole state. -/
def teaEncStep (k0 k1 k2 k3 delta : Nat) (st : Nat × Nat × Nat) : Nat × Nat × Nat :=
  let sum' := (st.2.2 + delta) % 4294967296
  let v0' := (st.1 + teaMix st.2.1 k0 k1 sum') % 4294967296
  let v1' := (st.2.1 + teaMix v0' k2 k3 sum') % 4294967296
  (v0', v1', sum')

/-- One iteration of the decryption loop, as a function of the whole state. -/
def teaDecStep (k0 k1 k2 k3 delta : Nat) (st : Nat × Nat × Nat) : Nat × Nat × Nat :=
  let v1' := pySub32 st.2.1 (teaMix st.1 k2 k3 st.2.2)
  let v0' := pySub32 st.1 (teaMix v1' k0 k1 st.2.2)
  (v0', v1', pySub32 st.2.2 delta)

/-- `QMC_TEACipher.decrypt` (also `TC_TEACipher.original_tea_decrypt`,
whose body is identical): decrypt the first 8-byte block of `src` with
`rounds` TEA rounds and the 16-byte `key`; `ciphersum` starts at
`(delta * (rounds // 2)) & 0xffffffff`. -/
def teaDecryptData (key : List Nat) (rounds delta : Nat) (src : List Nat) :
    Except PyErr (List Nat) := do
  let (v0, v1, k0, k1, k2, k3) ← teaGetValues key src
  let sum0 := (delta * (rounds / 2)) &&& 0xffffffff
  let r := teaDecLoop k0 k1 k2 k3 delta (rounds / 2) (v0, v1, sum0)
  Except.ok (put32 r.1 ++ put32 r.2.1)

/-- `QMC_TEACipher.encrypt`: encrypt one 8-byte block; `ciphersum` starts
at `0 & 0xffffffff`. -/
def teaEncryptData (key : List Nat) (rounds delta : Nat) (src : List Nat) :
    Except PyErr (List Nat) := do
  let (v0, v1, k0, k1, k2, k3) ← teaGetValues key src
  let sum0 := 0 &&& 0xffffffff
  let r := teaEncLoop k0 k1 k2 k3 delta (rounds / 2) (v0, v1, sum0)
  Except.ok (put32 r.1 ++ put32 r.2.1)

/-! ### `TC_TEACipher` (envelope cipher over chained TEA) -/

/-- The mutable locals of `TC_TEACipher.decrypt` that the nested
`crypt_block` closure updates: the salt-loop counter `i`, `dest_idx`,
`iv_prev`, `iv_cur`, `dest_data` and `src_pos`. -/
structure TcState where
  i : Nat
  destIdx : Nat
  ivPrev : List Nat
  ivCur : List Nat
  destData : List Nat
  srcPos : Nat
deriving DecidableEq, Repr

/-- The nested `crypt_block` closure of `TC_TEACipher.decrypt`: shift
`iv_prev ← iv_cur`, read the next raw 8-byte ciphertext block into
`iv_cur`, TEA-decrypt `strxor(dest_data[:8], iv_cur[:8])` into
`dest_data`, advance `src_pos` and reset `dest_idx` to 0. -/
def tcCryptBlock (key : List Nat) (rounds delta : Nat) (src : List Nat)
    (st : TcState) : Except PyErr TcState := do
  let ivPrev := st.ivCur
  let ivCur := (src.drop st.srcPos).take 8
  let x ← pyStrxor (st.destData.take 8) (ivCur.take 8)
  let d ← teaDecryptData key rounds delta x
  Except.ok ⟨st.i, 0, ivPrev, ivCur, d, st.srcPos + 8⟩

/-- The salt-skipping loop `while i <= self._salt_len` of
`TC_TEACipher.decrypt` (`salt_len = 2`).  A state with `dest_idx > 8`
makes the Python loop spin forever; the fueled rendering returns
`fuelOut` there. -/
def tcSaltLoop (key : List Nat) (rounds delta : Nat) (src : List Nat) :
    Nat → TcState → Except PyErr TcState
  | 0, _ => Except.error PyErr.fuelOut
  | fuel + 1, st =>
    if st.i ≤ 2 then
      if st.destIdx < 8 then
        tcSaltLoop key rounds delta src fuel
          { st with destIdx := st.destIdx + 1, i := st.i + 1 }
      else if st.destIdx = 8 then do
        let st' ← tcCryptBlock key rounds delta src st
        tcSaltLoop key rounds delta src fuel st'
      else Except.error PyErr.fuelOut
    else Except.ok st

/-- The output loop `while out_buffer_pos < out_buffer_len` of
`TC_TEACipher.decrypt`: each produced byte is
`dest_data[dest_idx] ^ iv_prev[dest_idx]` (both indexings can raise
`IndexError`), with `crypt_block` pulling a fresh block when
`dest_idx = 8`. -/
def tcOutLoop (key : List Nat) (rounds delta : Nat) (src : List Nat)
    (outLen : Nat) :
    Nat → Nat → List Nat → TcState → Except PyErr (List Nat × TcState)
  | 0, _, _, _ => Except.error PyErr.fuelOut
  | fuel + 1, pos, out, st =>
    if pos < outLen then
      if st.destIdx < 8 then do
        let a ← pyIndex st.destData st.destIdx
        let b ← pyIndex st.ivPrev st.destIdx
        tcOutLoop key rounds delta src outLen fuel (pos + 1)
          (out.set pos (a ^^^ b)) { st with destIdx := st.destIdx + 1 }
      else if st.destIdx = 8 then do
        let st' ← tcCryptBlock key rounds delta src st
        tcOutLoop key rounds delta src outLen fuel pos out st'
      else Except.error PyErr.fuelOut
    else Except.ok (out, st)

/-- One iteration body of the trailing check
`if dest_data[dest_idx] != iv_prev[dest_idx]: raise`, iterated `count`
times at the same fixed `dest_idx`. -/
def tcZeroCheckGo (destData ivPrev : List Nat) (destIdx : Nat) :
    Nat → Except PyErr Unit
  | 0 => Except.ok ()
  | count + 1 => do
    let a ← pyIndex destData destIdx
    let b ← pyIndex ivPrev destIdx
    if a ≠ b then Except.error PyErr.zeroCheckFailed
    else tcZeroCheckGo destData ivPrev destIdx count

/-- The trailing integrity check of `TC_TEACipher.decrypt`:
`for i in range(1, self._zero_len)` runs `zero_len - 1 = 6` iterations,
each comparing `dest_data[dest_idx]` against `iv_prev[dest_idx]`; the
loop variable `i` is unused and `dest_idx` is never advanced. -/
def tcZeroCheck (destData ivPrev : List Nat) (destIdx : Nat) :
    Except PyErr Unit :=
  tcZeroCheckGo destData ivPrev destIdx 6

/-- `TC_TEACipher.decrypt`: size checks, plain-TEA decryption of the first
block, pad-length check (`pad_len = dest_data[0] & 7`, `salt_len = 2`,
`zero_len = 7`), salt loop, output loop, zero check.  The loop fuels
`n + 16` and `2 * n + 16` strictly dominate the number of iterations the
Python loops can perform before exiting or raising. -/
def tcDecrypt (key : List Nat) (rounds delta : Nat) (src : List Nat) :
    Except PyErr (List Nat) :=
  let n := src.length
  if n % 8 ≠ 0 then Except.error PyErr.sizeNotMultiple
  else if n < 16 then Except.error PyErr.sizeTooSmall
  else do
    let destData ← teaDecryptData key rounds delta src
    let padLen := destData.getD 0 0 &&& 7
    let outLen := n - padLen - 2 - 7 - 1
    if padLen + 2 ≠ 8 then Except.error PyErr.invalidPadLen
    else do
      let st1 ← tcSaltLoop key rounds delta src (n + 16)
        ⟨1, padLen + 1, [], [], destData, 8⟩
      let r ← tcOutLoop key rounds delta src outLen (2 * n + 16) 0
        (List.replicate outLen 0) st1
      let _ ← tcZeroCheck r.2.destData r.2.ivPrev r.2.destIdx
      Except.ok r.1

/-- The pad length `dest_data[0] & 7` that `TC_TEACipher.decrypt` extracts
from the plain-TEA decryption of the first 8-byte block of `src`. -/
def tcPadLen (key : List Nat) (rounds delta : Nat) (src : List Nat) :
    Except PyErr Nat :=
  (teaDecryptData key rounds delta src).map (fun d => d.getD 0 0 &&& 7)

/-! ### `QMCv1_StaticMapCipher` -/

/-- The embedded 256-byte constant table of `QMCv1_StaticMapCipher`. -/
def staticCipherBox : List Nat := [
  0x77, 0x48, 0x32, 0x73, 0xde, 0xf2, 0xc0, 0xc8,
  0x95, 0xec, 0x30, 0xb2, 0x51, 0xc3, 0xe1, 0xa0,
  0x9e, 0xe6, 0x9d, 0xcf, 0xfa, 0x7f, 0x14, 0xd1,
  0xce, 0xb8, 0xdc, 0xc3, 0x4a, 0x67, 0x93, 0xd6,
  0x28, 0xc2, 0x91, 0x70, 0xca, 0x8d, 0xa2, 0xa4,
  0xf0, 0x08, 0x61, 0x90, 0x7e, 0x6f, 0xa2, 0xe0,
  0xeb, 0xae, 0x3e, 0xb6, 0x67, 0xc7, 0x92, 0xf4,
  0x91, 0xb5, 0xf6, 0x6c, 0x5e, 0x84, 0x40, 0xf7,
  0xf3, 0x1b, 0x02, 0x7f, 0xd5, 0xab, 0x41, 0x89,
  0x28, 0xf4, 0x25, 0xcc, 0x52, 0x11, 0xad, 0x43,
  0x68, 0xa6, 0x41, 0x8b, 0x84, 0xb5, 0xff, 0x2c,
  0x92, 0x4a, 0x26, 0xd8, 0x47, 0x6a, 0x7c, 0x95,
  0x61, 0xcc, 0xe6, 0xcb, 0xbb, 0x3f, 0x47, 0x58,
  0x89, 0x75, 0xc3, 0x75, 0xa1, 0xd9, 0xaf, 0xcc,
  0x08, 0x73, 0x17, 0xdc, 0xaa, 0x9a, 0xa2, 0x16,
  0x41, 0xd8, 0xa2, 0x06, 0xc6, 0x8b, 0xfc, 0x66,
  0x34, 0x9f, 0xcf, 0x18, 0x23, 0xa0, 0x0a, 0x74,
  0xe7, 0x2b, 0x27, 0x70, 0x92, 0xe9, 0xaf, 0x37,
  0xe6, 0x8c, 0xa7, 0xbc, 0x62, 0x65, 0x9c, 0xc2,
  0x08, 0xc9, 0x88, 0xb3, 0xf3, 0x43, 0xac, 0x74,
  0x2c, 0x0f, 0xd4, 0xaf, 0xa1, 0xc3, 0x01, 0x64,
  0x95, 0x4e, 0x48, 0x9f, 0xf4, 0x35, 0x78, 0x95,
  0x7a, 0x39, 0xd6, 0x6a, 0xa0, 0x6d, 0x40, 0xe8,
  0x4f, 0xa8, 0xef, 0x11, 0x1d, 0xf3, 0x1b, 0x3f,
  0x3f, 0x07, 0xdd, 0x6f, 0x5b, 0x19, 0x30, 0x19,
  0xfb, 0xef, 0x0e, 0x37, 0xf0, 0x0e, 0xcd, 0x16,
  0x49, 0xfe, 0x53, 0x47, 0x13, 0x1a, 0xbd, 0xa4,
  0xf1, 0x40, 0x19, 0x60, 0x0e, 0xed, 0x68, 0x09,
  0x06, 0x5f, 0x4d, 0xcf, 0x3d, 0x1a, 0xfe, 0x20,
  0x77, 0xe4, 0xd9, 0xda, 0xf9, 0xa4, 0x2b, 0x76,
  0x1c, 0x71, 0xdb, 0x00, 0xbc, 0xfd, 0x0c, 0x6c,
  0xa5, 0x47, 0xf7, 0xf6, 0x00, 0x79, 0x4a, 0x11
]

/-- `QMCv1_StaticMapCipher._get_mask`: fold the offset into
`[0, 0x7fff)` by modulo when it exceeds `0x7fff`, then index the constant
table at `(offset ** 2 + 27) & 0xff`. -/
def staticGetMask (offset : Nat) : Nat :=
  let o := if offset > 0x7fff then offset % 0x7fff else offset
  staticCipherBox.getD ((o ^ 2 + 27) &&& 0xff) 0

/-- `QMCv1_StaticMapCipher.decrypt`: xor each byte with the positional
mask (rendering of
`bytes(src_data[i] ^ self._get_mask(offset=offset + i) for i in range(len(src_data)))`). -/
def staticDecrypt (src : List Nat) (offset : Nat) : List Nat :=
  match src with
  | [] => []
  | b :: rest => (b ^^^ staticGetMask offset) :: staticDecrypt rest (offset + 1)

/-! ### `QMCv2_DynamicMapCipher` -/

/-- `QMCv2_DynamicMapCipher._rotate`:
`rotated = (bits + 4) % 8`, `left = (value << rotated) % 256`,
`right = (value >> rotated) % 256`, result `left | right`. -/
def dynRotate (value bits : Nat) : Nat :=
  let rotated := (bits + 4) % 8
  let left := (value <<< rotated) % 256
  let right := (value >>> rotated) % 256
  left ||| right

/-- `QMCv2_DynamicMapCipher._get_mask`: fold the offset as in the static
cipher, index the key at `(offset ** 2 + 71214) % key_length` and rotate
(a zero key length makes the Python code raise `ZeroDivisionError`; the
theorems below therefore assume a nonempty key). -/
def dynGetMask (key : List Nat) (offset : Nat) : Nat :=
  let o := if offset > 0x7fff then offset % 0x7fff else offset
  let idx := (o ^ 2 + 71214) % key.length
  dynRotate (key.getD idx 0) (idx &&& 7)

/-- `QMCv2_DynamicMapCipher.decrypt`: xor each byte with the keyed
positional mask. -/
def dynDecrypt (key : List Nat) (src : List Nat) (offset : Nat) : List Nat :=
  match src with
  | [] => []
  | b :: rest => (b ^^^ dynGetMask key offset) :: dynDecrypt key rest (offset + 1)

/-- The spec's 8-bit left barrel rotation, modelled from the words of the
specification for comparison with `dynRotate` (refinement target of claim
C9, not a translation of the source). -/
def rotl8 (v r : Nat) : Nat :=
  ((v <<< r) ||| (v >>> (8 - r))) % 256

/-! ### `QMCv2_RC4Cipher` -/

/-- A `QMCv2_RC4Cipher` instance: the key, the scheduled permutation table
`self._box` and the multiplicative key hash `self._hash`. -/
structure RC4Inst where
  key : List Nat
  box : List Nat
  hashVal : Nat
deriving DecidableEq, Repr

/-- The Python simultaneous swap `l[a], l[b] = l[b], l[a]`. -/
def listSwap (l : List Nat) (a b : Nat) : List Nat :=
  (l.set a (l.getD b 0)).set b (l.getD a 0)

/-- The key-scheduling loop of `QMCv2_RC4Cipher.__init__`: the box starts
as `bytearray(i % 256 for i in range(key_length))` and is scrambled by the
standard RC4 KSA parameterized by the key length. -/
def rc4KSA (key : List Nat) : List Nat :=
  let L := key.length
  ((List.range L).foldl
    (fun bj i =>
      let j := (bj.2 + bj.1.getD i 0 + key.getD (i % L) 0) % L
      (listSwap bj.1 i j, j))
    ((List.range L).map (· % 256), 0)).1

/-- The body of `QMCv2_RC4Cipher._get_hash_base`: walk the key bytes,
skipping zeros, multiplying the hash modulo `2 ^ 32`, stopping (and keeping
the previous value) when the product becomes zero or fails to increase. -/
def rc4HashBaseGo : List Nat → Nat → Nat
  | [], h => h
  | v :: rest, h =>
    if v = 0 then rc4HashBaseGo rest h
    else
      let nh := (h * v) &&& 0xffffffff
      if nh = 0 ∨ nh ≤ h then h else rc4HashBaseGo rest nh

/-- `QMCv2_RC4Cipher._get_hash_base`, starting from 1. -/
def rc4HashBase (key : List Nat) : Nat := rc4HashBaseGo key 1

/-- `QMCv2_RC4Cipher.__init__`: reject an empty key, otherwise schedule the
box and compute the hash. -/
def rc4Mk (key : List Nat) : Except PyErr RC4Inst :=
  if key.length = 0 then Except.error PyErr.cipherGen
  else Except.ok ⟨key, rc4KSA key, rc4HashBase key⟩

/-- `QMCv2_RC4Cipher._get_segment_skip`:
`seed = key[v % key_length]`, `idx = int(hash / ((v + 1) * seed) * 100)`,
result `idx % key_length`.  A zero `seed` (a zero key byte) makes the
division raise `ZeroDivisionError`, as does a zero key length at
`v % key_length`. -/
def rc4SegmentSkip (inst : RC4Inst) (v : Nat) : Except PyErr Nat :=
  let L := inst.key.length
  if L = 0 then Except.error PyErr.zeroDiv
  else
    let seed := inst.key.getD (v % L) 0
    if (v + 1) * seed = 0 then Except.error PyErr.zeroDiv
    else Except.ok (pyDivMul100Floor inst.hashVal ((v + 1) * seed) % L)

/-- `QMCv2_RC4Cipher._enc_1st_segment`: xor byte `i` with
`key[_get_segment_skip(offset + i)]` (rendering of the indexed `for` loop
as structural recursion with a running absolute offset). -/
def rc4Enc1st (inst : RC4Inst) (buf : List Nat) (offset : Nat) :
    Except PyErr (List Nat) :=
  match buf with
  | [] => Except.ok []
  | b :: rest => do
    let s ← rc4SegmentSkip inst offset
    let rest' ← rc4Enc1st inst rest (offset + 1)
    Except.ok ((b ^^^ inst.key.getD s 0) :: rest')

/-- The walking state of `_enc_another_segment`: the per-call copy of the
box and the running indices `j`, `k`. -/
structure WalkSt where
  box : List Nat
  j : Nat
  k : Nat
deriving DecidableEq, Repr

/-- One iteration of the `_enc_another_segment` loop before emission:
`j = (j + 1) % L`, `k = (box[j] + k) % L`, swap `box[j]` and `box[k]`. -/
def rc4Step (L : Nat) (st : WalkSt) : WalkSt :=
  let j := (st.j + 1) % L
  let k := (st.box.getD j 0 + st.k) % L
  ⟨listSwap st.box j k, j, k⟩

/-- The keystream byte `box[(box[j] + box[k]) % L]` emitted after a step. -/
def rc4Emit (L : Nat) (st : WalkSt) : Nat :=
  st.box.getD ((st.box.getD st.j 0 + st.box.getD st.k 0) % L) 0

/-- `n` successive `rc4Step`s (the negative-index skip phase of the
`for i in range(-skip_len, len(buf))` loop). -/
def rc4StepN (L : Nat) : Nat → WalkSt → WalkSt
  | 0, st => st
  | n + 1, st => rc4StepN L n (rc4Step L st)

/-- The emitting phase (`i >= 0`) of the `_enc_another_segment` loop: for
each buffer byte, step once and xor with the emitted keystream byte. -/
def rc4EmitPhase (L : Nat) (st : WalkSt) : List Nat → List Nat
  | [] => []
  | b :: rest =>
    let st' := rc4Step L st
    (b ^^^ rc4Emit L st') :: rc4EmitPhase L (rc4Step L st) rest

/-- The keystream bytes a fresh box-walk emits after `m` silent steps, for
`n` further emitting steps. -/
def rc4EmitSeq (L : Nat) (box : List Nat) (m : Nat) : Nat → List Nat
  | 0 => []
  | n + 1 =>
    rc4Emit L (rc4StepN L (m + 1) ⟨box, 0, 0⟩) :: rc4EmitSeq L box (m + 1) n

/-- `QMCv2_RC4Cipher._enc_another_segment`: copy the scheduled box
(`box = self.box.copy()` — the instance box is read, never written), run
`skip_len = offset % 5120 + _get_segment_skip(offset // 5120)` silent
steps, then emit one keystream byte per buffer byte. -/
def rc4EncAnother (inst : RC4Inst) (buf : List Nat) (offset : Nat) :
    Except PyErr (List Nat) := do
  let sk ← rc4SegmentSkip inst (offset / 5120)
  let skipLen := offset % 5120 + sk
  Except.ok (rc4EmitPhase inst.key.length
    (rc4StepN inst.key.length skipLen ⟨inst.box, 0, 0⟩) buf)

/-- The `while pending > 5120` loop of `QMCv2_RC4Cipher.decrypt` together
with the final `if pending > 0` call: full 5120-byte segments are decrypted
in place, then the remainder.  The fuel passed by `rc4DecryptRest` strictly
dominates the iteration count (each iteration removes 5120 bytes of
pending data), so `fuelOut` is unreachable from `rc4Decrypt`. -/
def rc4DecryptLoop (inst : RC4Inst) :
    Nat → List Nat → Nat → Nat → Except PyErr (List Nat)
  | 0, _, _, _ => Except.error PyErr.fuelOut
  | fuel + 1, src, done, offset =>
    let pending := src.length - done
    if 5120 < pending then do
      let dec ← rc4EncAnother inst ((src.drop done).take 5120) offset
      rc4DecryptLoop inst fuel (src.take done ++ dec ++ src.drop (done + 5120))
        (done + 5120) (offset + 5120)
    else if 0 < pending then do
      let dec ← rc4EncAnother inst (src.drop done) offset
      Except.ok (src.take done ++ dec)
    else Except.ok src

/-- The tail of `QMCv2_RC4Cipher.decrypt` after the first-segment branch:
the boundary block up to the next 5120-byte boundary (when the offset is
not segment-aligned), then the segment loop. -/
def rc4DecryptRest (inst : RC4Inst) (src : List Nat) (done offset : Nat) :
    Except PyErr (List Nat) :=
  if offset % 5120 ≠ 0 then do
    let pending := src.length - done
    let blksize := min pending (5120 - offset % 5120)
    let dec ← rc4EncAnother inst ((src.drop done).take blksize) offset
    let src' := src.take done ++ dec ++ src.drop (done + blksize)
    if src.length - (done + blksize) = 0 then Except.ok src'
    else rc4DecryptLoop inst (src.length + 1) src' (done + blksize) (offset + blksize)
  else rc4DecryptLoop inst (src.length + 1) src done offset

/-- `QMCv2_RC4Cipher.decrypt`: the three-region split (first 128 bytes by
keyed lookup, boundary block, aligned 5120-byte segments).  The method
reads `self` but never assigns to it; the returned pair carries the
instance a caller observes after the call. -/
def rc4Decrypt (inst : RC4Inst) (srcData : List Nat) (offset : Nat) :
    Except PyErr (List Nat × RC4Inst) :=
  let n := srcData.length
  if offset < 128 then do
    let blksize := min n (128 - offset)
    let dec ← rc4Enc1st inst (srcData.take blksize) offset
    let src1 := dec ++ srcData.drop blksize
    if n - blksize = 0 then Except.ok (src1, inst)
    else (rc4DecryptRest inst src1 blksize (offset + blksize)).map (fun out => (out, inst))
  else (rc4DecryptRest inst srcData 0 offset).map (fun out => (out, inst))

/-- The byte result of `QMCv2_RC4Cipher.decrypt`. -/
def rc4DecryptBytes (inst : RC4Inst) (srcData : List Nat) (offset : Nat) :
    Except PyErr (List Nat) :=
  (rc4Decrypt inst srcData offset).map (fun r => r.1)

/-- The keystream byte of the decrypted stream at absolute position `p`:
positions below 128 use the keyed-lookup first-segment rule, all others
the box-walk rule with `skip(p / 5120)` extra silent steps.  That the
whole of `decrypt` xors with exactly this position-pure stream is the
content of `rc4Decrypt_eq_keystream`. -/
def rc4KS (inst : RC4Inst) (p : Nat) : Except PyErr Nat :=
  if p < 128 then (rc4SegmentSkip inst p).map (fun s => inst.key.getD s 0)
  else (rc4SegmentSkip inst (p / 5120)).map (fun sk =>
    rc4Emit inst.key.length
      (rc4StepN inst.key.length (p % 5120 + sk + 1) ⟨inst.box, 0, 0⟩))

/-- The keystream bytes for `n` successive positions starting at `offset`,
with the error of the first failing position. -/
def rc4KSRange (inst : RC4Inst) : Nat → Nat → Except PyErr (List Nat)
  | _, 0 => Except.ok []
  | offset, n + 1 => do
    let m ← rc4KS inst offset
    let ms ← rc4KSRange inst (offset + 1) n
    Except.ok (m :: ms)

/-- Decrypt a list of consecutive chunks, each at its absolute offset, and
concatenate the results (the partitioned decryption of claim C5). -/
def rc4DecryptParts (inst : RC4Inst) : List (List Nat) → Nat → Except PyErr (List Nat)
  | [], _ => Except.ok []
  | c :: cs, offset => do
    let r ← rc4DecryptBytes inst c offset
    let rs ← rc4DecryptParts inst cs (offset + c.length)
    Except.ok (r ++ rs)

/-! ### Basic lemmas -/

theorem zipXor_length (a b : List Nat) :
    (zipXor a b).length = min a.length b.length := by
  induction a generalizing b with
  | nil => simp [zipXor]
  | cons x xs ih =>
    cases b with
    | nil => simp [zipXor]
    | cons y ys =>
      simp only [zipXor, List.length_cons, ih]
      omega

theorem zipXor_self_inverse (a b : List Nat) (h : a.length = b.length) :
    zipXor (zipXor a b) b = a := by
  induction a generalizing b with
  | nil => cases b <;> simp [zipXor]
  | cons x xs ih =>
    cases b with
    | nil => simp at h
    | cons y ys =>
      simp only [zipXor, List.cons.injEq]
      refine ⟨?_, ih ys (by simpa using h)⟩
      simp [Nat.xor_assoc]

theorem zipXor_append (a₁ a₂ b₁ b₂ : List Nat) (h : a₁.length = b₁.length) :
    zipXor (a₁ ++ a₂) (b₁ ++ b₂) = zipXor a₁ b₁ ++ zipXor a₂ b₂ := by
  induction a₁ generalizing b₁ with
  | nil => cases b₁ <;> simp_all [zipXor]
  | cons x xs ih =>
    cases b₁ with
    | nil => simp at h
    | cons y ys => simp [zipXor, ih ys (by simpa using h)]

theorem pyIndex_ok (l : List Nat) (i : Nat) (h : i < l.length) :
    pyIndex l i = Except.ok (l.getD i 0) := by
  unfold pyIndex
  rw [List.get?_eq_getElem?, List.getElem?_eq_getElem h]
  simp [List.getD_eq_getElem?_getD, List.getElem?_eq_getElem h]

theorem pyIndex_nil (i : Nat) : pyIndex [] i = Except.error PyErr.indexError := by
  unfold pyIndex
  simp

/-! ### Claim C4: the trailing zero check -/

theorem tcZeroCheckGo_of_eq (d iv : List Nat) (idx : Nat)
    (hd : idx < d.length) (hiv : idx < iv.length)
    (h : d.getD idx 0 = iv.getD idx 0) :
    ∀ count, tcZeroCheckGo d iv idx count = Except.ok () := by
  intro count
  induction count with
  | zero => rfl
  | succ n ih =>
    simp [tcZeroCheckGo, pyIndex_ok d idx hd, pyIndex_ok iv idx hiv, ih,
      Bind.bind, Except.bind, ← List.getD_eq_getElem?_getD, h]

theorem tcZeroCheckGo_of_ne (d iv : List Nat) (idx : Nat)
    (hd : idx < d.length) (hiv : idx < iv.length)
    (h : d.getD idx 0 ≠ iv.getD idx 0) :
    ∀ count, tcZeroCheckGo d iv idx (count + 1) = Except.error PyErr.zeroCheckFailed := by
  intro count
  simp [tcZeroCheckGo, pyIndex_ok d idx hd, pyIndex_ok iv idx hiv,
    Bind.bind, Except.bind, ← List.getD_eq_getElem?_getD, h]

/-- C4 (counterexample): the integrity check of `TC_TEACipher.decrypt` does
not compare the 7 trailing bytes at successive positions.  Here
`dest_data` and `iv_prev` (both 8 bytes) disagree at position 2, inside the
7 trailing positions `1..7` that the claim says are checked, yet the check
passes because all 6 comparisons of the loop reread the same fixed index
`dest_idx = 1`. -/
theorem tcZeroCheck_misses_mismatch :
    tcZeroCheck [0, 0, 9, 0, 0, 0, 0, 0] [0, 0, 0, 0, 0, 0, 0, 0] 1 = Except.ok () ∧
      [0, 0, 9, 0, 0, 0, 0, 0].getD 2 0 ≠ [0, 0, 0, 0, 0, 0, 0, 0].getD 2 0 := by
  constructor
  · rfl
  · decide

/-- C4 (amended): the integrity check performs 6 comparisons
(`range(1, 7)`), all at the one fixed position `dest_idx`, comparing
`dest_data[dest_idx]` with `iv_prev[dest_idx]`; it raises the decryption
error exactly when that single comparison mismatches. -/
theorem tcZeroCheck_fixed_position (d iv : List Nat) (idx : Nat)
    (hd : idx < d.length) (hiv : idx < iv.length) :
    tcZeroCheck d iv idx =
      if d.getD idx 0 = iv.getD idx 0 then Except.ok ()
      else Except.error PyErr.zeroCheckFailed := by
  by_cases h : d.getD idx 0 = iv.getD idx 0
  · rw [if_pos (by simpa [List.getD_eq_getElem?_getD] using h)]
    exact tcZeroCheckGo_of_eq d iv idx hd hiv h 6
  · rw [if_neg (by simpa [List.getD_eq_getElem?_getD] using h)]
    exact tcZeroCheckGo_of_ne d iv idx hd hiv h 5

/-- Witness for `tcZeroCheck_fixed_position` at concrete 8-byte buffers. -/
theorem tcZeroCheck_fixed_position_witness :
    tcZeroCheck [1, 2, 3, 4, 5, 6, 7, 8] [1, 9, 3, 4, 5, 6, 7, 8] 1 =
      (if [1, 2, 3, 4, 5, 6, 7, 8].getD 1 0 = [1, 9, 3, 4, 5, 6, 7, 8].getD 1 0
        then Except.ok () else Except.error PyErr.zeroCheckFailed) :=
  tcZeroCheck_fixed_position [1, 2, 3, 4, 5, 6, 7, 8] [1, 9, 3, 4, 5, 6, 7, 8] 1
    (by decide) (by decide)

/-! ### Claim C9: the dynamic-map mask versus an 8-bit rotation -/

set_option maxRecDepth 8000 in
theorem dynRotate_zero_eq_rotl8 : ∀ v < 256, dynRotate v 0 = rotl8 v 4 := by decide

set_option maxRecDepth 4000 in
/-- C9 (counterexample): with key `[0, 128]` and position 1 the mask index
is `(1 + 71214) % 2 = 1`, the key byte is `v = 128` and the rotate amount
is `r = ((1 & 7) + 4) % 8 = 5`; the cipher's mask is 4 while the 8-bit left
barrel rotation of 128 by 5 is 16. -/
theorem dynGetMask_ne_rotl8 :
    ((1 ^ 2 + 71214) % 2 = 1 ∧ ((1 &&& 7) + 4) % 8 = 5) ∧
      dynGetMask [0, 128] 1 = 4 ∧ rotl8 128 5 = 16 := by decide

theorem getD_lt_256 (l : List Nat) (i : Nat) (hb : ∀ b ∈ l, b < 256) :
    l.getD i 0 < 256 := by
  rcases h : l.get? i with _ | v
  · rw [List.getD_eq_getElem?_getD, ← List.get?_eq_getElem?, h]
    decide
  · rw [List.getD_eq_getElem?_getD, ← List.get?_eq_getElem?, h]
    exact hb v (List.get?_mem h)

/-- C9 (amended): the mask byte is `((v << r) % 256) | ((v >> r) % 256)`,
which is the spec's 8-bit left barrel rotation exactly in the case
`idx & 7 = 0` (rotate amount `r = 4`); for other rotate amounts the high
bits of `v` are shifted right by `r` instead of `8 - r` and the value is
not a rotation of `v`. -/
theorem dynGetMask_eq_rotl8_of_aligned (key : List Nat) (offset : Nat)
    (hb : ∀ b ∈ key, b < 256)
    (hidx : ((if offset > 0x7fff then offset % 0x7fff else offset) ^ 2 + 71214) %
        key.length &&& 7 = 0) :
    dynGetMask key offset =
      rotl8 (key.getD
        (((if offset > 0x7fff then offset % 0x7fff else offset) ^ 2 + 71214) %
          key.length) 0) 4 := by
  simp only [dynGetMask]
  rw [hidx]
  exact dynRotate_zero_eq_rotl8 _ (getD_lt_256 key _ hb)

/-- Witness for `dynGetMask_eq_rotl8_of_aligned`: key `[5]`, offset 0, so
`idx = 71214 % 1 = 0` and the mask is `rotl8 5 4 = 80`. -/
theorem dynGetMask_eq_rotl8_of_aligned_witness :
    dynGetMask [5] 0 = rotl8 ([5].getD (((if (0:Nat) > 0x7fff then 0 % 0x7fff else 0) ^ 2 + 71214) % [5].length) 0) 4 :=
  dynGetMask_eq_rotl8_of_aligned [5] 0 (by decide) (by decide)

/-! ### Claim C8: zero-length buffers -/

/-- C8 (counterexample): `QMC_TEACipher.decrypt` on a zero-length buffer
does not return a zero-length output; `BE_Uint32.unpack(src_data[:4])`
raises `struct.error` because the slice is empty. -/
theorem teaDecrypt_nil_raises :
    teaDecryptData (List.replicate 16 0) 64 0x9e3779b9 [] =
      Except.error PyErr.structError := by decide

/-- C8 (amended): a zero-length buffer decrypts to a zero-length output for
the three stream ciphers (static map, dynamic map, segmented RC4), but the
TEA block cipher raises `struct.error` (its 4-byte unpack of the empty
buffer fails) and the envelope cipher raises its too-small size error. -/
theorem zero_length_buffers :
    (∀ offset, staticDecrypt [] offset = []) ∧
    (∀ key offset, dynDecrypt key [] offset = []) ∧
    (∀ inst : RC4Inst, rc4DecryptBytes inst [] 0 = Except.ok []) ∧
    (∀ key rounds delta, teaDecryptData key rounds delta [] =
      Except.error PyErr.structError) ∧
    (∀ key rounds delta, tcDecrypt key rounds delta [] =
      Except.error PyErr.sizeTooSmall) := by
  exact ⟨fun _ => rfl, fun _ _ => rfl, fun inst => rfl, fun _ _ _ => rfl,
    fun _ _ _ => rfl⟩

/-! ### Claim C6: TEA round-trip -/

theorem pySub32_lt (a b : Nat) : pySub32 a b < 4294967296 := by
  unfold pySub32; omega

theorem pySub32_add_cancel (a b : Nat) (h : a < 4294967296) :
    (pySub32 a b + b) % 4294967296 = a := by
  unfold pySub32; omega

theorem teaEncLoop_step (k0 k1 k2 k3 delta n : Nat) (st : Nat × Nat × Nat) :
    teaEncLoop k0 k1 k2 k3 delta (n + 1) st =
      teaEncLoop k0 k1 k2 k3 delta n (teaEncStep k0 k1 k2 k3 delta st) := by
  rcases st with ⟨v0, v1, sum⟩
  rfl

theorem teaDecLoop_step (k0 k1 k2 k3 delta n : Nat) (st : Nat × Nat × Nat) :
    teaDecLoop k0 k1 k2 k3 delta (n + 1) st =
      teaDecLoop k0 k1 k2 k3 delta n (teaDecStep k0 k1 k2 k3 delta st) := by
  rcases st with ⟨v0, v1, sum⟩
  rfl

theorem teaEncLoop_snoc (k0 k1 k2 k3 delta n : Nat) (st : Nat × Nat × Nat) :
    teaEncLoop k0 k1 k2 k3 delta (n + 1) st =
      teaEncStep k0 k1 k2 k3 delta (teaEncLoop k0 k1 k2 k3 delta n st) := by
  induction n generalizing st with
  | zero => rw [teaEncLoop_step]; rfl
  | succ m ih =>
    rw [teaEncLoop_step, ih, teaEncLoop_step]

theorem teaEncStep_teaDecStep (k0 k1 k2 k3 delta v0 v1 S : Nat)
    (hv0 : v0 < 4294967296) (hv1 : v1 < 4294967296) (hS : S < 4294967296) :
    teaEncStep k0 k1 k2 k3 delta (teaDecStep k0 k1 k2 k3 delta (v0, v1, S)) =
      (v0, v1, S) := by
  unfold teaEncStep teaDecStep
  simp only [Prod.mk.injEq]
  rw [pySub32_add_cancel S delta hS, pySub32_add_cancel v0 _ hv0,
    pySub32_add_cancel v1 _ hv1]
  exact ⟨rfl, rfl, rfl⟩

theorem teaEncLoop_inverts (k0 k1 k2 k3 delta : Nat) :
    ∀ n v0 v1 S, v0 < 4294967296 → v1 < 4294967296 → S < 4294967296 →
      teaEncLoop k0 k1 k2 k3 delta n
        (teaDecLoop k0 k1 k2 k3 delta n (v0, v1, S)) = (v0, v1, S) := by
  intro n
  induction n with
  | zero => intro v0 v1 S _ _ _; rfl
  | succ m ih =>
    intro v0 v1 S hv0 hv1 hS
    rw [teaDecLoop_step, teaEncLoop_snoc]
    have hstep : teaDecStep k0 k1 k2 k3 delta (v0, v1, S) =
        ((teaDecStep k0 k1 k2 k3 delta (v0, v1, S)).1,
          (teaDecStep k0 k1 k2 k3 delta (v0, v1, S)).2.1,
          (teaDecStep k0 k1 k2 k3 delta (v0, v1, S)).2.2) := rfl
    rw [hstep, ih ((teaDecStep k0 k1 k2 k3 delta (v0, v1, S)).1)
        ((teaDecStep k0 k1 k2 k3 delta (v0, v1, S)).2.1)
        ((teaDecStep k0 k1 k2 k3 delta (v0, v1, S)).2.2)
        (pySub32_lt _ _) (pySub32_lt _ _) (pySub32_lt _ _),
      ← hstep, teaEncStep_teaDecStep k0 k1 k2 k3 delta v0 v1 S hv0 hv1 hS]

theorem pySub32_mul_succ (s delta n : Nat) :
    pySub32 ((s + delta * (n + 1)) % 4294967296) delta =
      (s + delta * n) % 4294967296 := by
  have h : delta * (n + 1) = delta * n + delta := by ring
  rw [h]
  unfold pySub32
  generalize delta * n = t
  omega

theorem teaDecLoop_sum (k0 k1 k2 k3 delta : Nat) :
    ∀ n s v0 v1,
      (teaDecLoop k0 k1 k2 k3 delta n
        (v0, v1, (s + delta * n) % 4294967296)).2.2 = s % 4294967296 := by
  intro n
  induction n with
  | zero => intro s v0 v1; simp [teaDecLoop]
  | succ m ih =>
    intro s v0 v1
    rw [teaDecLoop_step]
    have h : teaDecStep k0 k1 k2 k3 delta
        (v0, v1, (s + delta * (m + 1)) % 4294967296) =
        (pySub32 v0 (teaMix (pySub32 v1
            (teaMix v0 k2 k3 ((s + delta * (m + 1)) % 4294967296))) k0 k1
            ((s + delta * (m + 1)) % 4294967296)),
          pySub32 v1 (teaMix v0 k2 k3 ((s + delta * (m + 1)) % 4294967296)),
          (s + delta * m) % 4294967296) := by
      unfold teaDecStep
      simp only [Prod.mk.injEq]
      exact ⟨trivial, trivial, pySub32_mul_succ s delta m⟩
    rw [h, ih]

theorem teaDecLoop_lt (k0 k1 k2 k3 delta : Nat) :
    ∀ n v0 v1 s, v0 < 4294967296 → v1 < 4294967296 →
      (teaDecLoop k0 k1 k2 k3 delta n (v0, v1, s)).1 < 4294967296 ∧
      (teaDecLoop k0 k1 k2 k3 delta n (v0, v1, s)).2.1 < 4294967296 := by
  intro n
  induction n with
  | zero => intro v0 v1 s hv0 hv1; exact ⟨hv0, hv1⟩
  | succ m ih =>
    intro v0 v1 s hv0 hv1
    rw [teaDecLoop_step]
    exact ih _ _ _ (pySub32_lt _ _) (pySub32_lt _ _)

theorem list_len4 (l : List Nat) (h : l.length = 4) :
    ∃ a b c d, l = [a, b, c, d] := by
  rcases l with _ | ⟨a, _ | ⟨b, _ | ⟨c, _ | ⟨d, rest⟩⟩⟩⟩ <;> simp_all

theorem list_len8 (l : List Nat) (h : l.length = 8) :
    ∃ a b c d e f g h', l = [a, b, c, d, e, f, g, h'] := by
  rcases l with _ | ⟨a, _ | ⟨b, _ | ⟨c, _ | ⟨d, _ | ⟨e, _ | ⟨f, _ | ⟨g, _ | ⟨h', rest⟩⟩⟩⟩⟩⟩⟩⟩ <;>
    simp_all

theorem unpackBE4_put32 (w : Nat) (h : w < 4294967296) :
    unpackBE4 (put32 w) = Except.ok w := by
  simp only [unpackBE4, put32, Nat.shiftRight_eq_div_pow]
  norm_num
  omega

theorem put32_unpack (a b c d : Nat) (ha : a < 256) (hb : b < 256)
    (hc : c < 256) (hd : d < 256) :
    put32 (a * 16777216 + b * 65536 + c * 256 + d) = [a, b, c, d] := by
  simp only [put32, Nat.shiftRight_eq_div_pow, List.cons.injEq, and_true]
  norm_num
  omega

/-- C6 (confirmed): for every 8-byte block `x`, every 16-byte key, every
delta and every even round count, TEA satisfies
`encrypt(decrypt(x)) = x` (`QMC_TEACipher.encrypt` after
`QMC_TEACipher.decrypt` returns the original block). -/
theorem tea_roundtrip (key x : List Nat) (rounds delta : Nat)
    (hkey : key.length = 16) (hx : x.length = 8) (hbyte : ∀ b ∈ x, b < 256)
    (heven : rounds % 2 = 0) :
    (teaDecryptData key rounds delta x).bind (teaEncryptData key rounds delta) =
      Except.ok x := by
  obtain ⟨x1, x2, x3, x4, x5, x6, x7, x8, rfl⟩ := list_len8 x hx
  obtain ⟨p0, p1, p2, p3, e1⟩ := list_len4 (key.take 4) (by simp [hkey])
  obtain ⟨q0, q1, q2, q3, e2⟩ := list_len4 ((key.drop 4).take 4) (by simp [hkey])
  obtain ⟨r0, r1, r2, r3, e3⟩ := list_len4 ((key.drop 8).take 4) (by simp [hkey])
  obtain ⟨s0, s1, s2, s3, e4⟩ := list_len4 (key.drop 12) (by simp [hkey])
  have hb1 : x1 < 256 := hbyte x1 (by simp)
  have hb2 : x2 < 256 := hbyte x2 (by simp)
  have hb3 : x3 < 256 := hbyte x3 (by simp)
  have hb4 : x4 < 256 := hbyte x4 (by simp)
  have hb5 : x5 < 256 := hbyte x5 (by simp)
  have hb6 : x6 < 256 := hbyte x6 (by simp)
  have hb7 : x7 < 256 := hbyte x7 (by simp)
  have hb8 : x8 < 256 := hbyte x8 (by simp)
  have hget : teaGetValues key [x1, x2, x3, x4, x5, x6, x7, x8] =
      Except.ok (x1 * 16777216 + x2 * 65536 + x3 * 256 + x4,
        x5 * 16777216 + x6 * 65536 + x7 * 256 + x8,
        p0 * 16777216 + p1 * 65536 + p2 * 256 + p3,
        q0 * 16777216 + q1 * 65536 + q2 * 256 + q3,
        r0 * 16777216 + r1 * 65536 + r2 * 256 + r3,
        s0 * 16777216 + s1 * 65536 + s2 * 256 + s3) := by
    simp [teaGetValues, e1, e2, e3, e4, unpackBE4, Bind.bind, Except.bind]
  have hX0 : x1 * 16777216 + x2 * 65536 + x3 * 256 + x4 < 4294967296 := by omega
  have hX1 : x5 * 16777216 + x6 * 65536 + x7 * 256 + x8 < 4294967296 := by omega
  have hmask : (delta * (rounds / 2)) &&& 0xffffffff =
      (delta * (rounds / 2)) % 4294967296 := by
    have h32 := Nat.and_pow_two_sub_one_eq_mod (delta * (rounds / 2)) 32
    norm_num at h32 ⊢
    omega
  have hS0 : (delta * (rounds / 2)) &&& 0xffffffff < 4294967296 := by
    rw [hmask]; omega
  simp only [teaDecryptData, hget, Bind.bind, Except.bind]
  set D := teaDecLoop (p0 * 16777216 + p1 * 65536 + p2 * 256 + p3)
    (q0 * 16777216 + q1 * 65536 + q2 * 256 + q3)
    (r0 * 16777216 + r1 * 65536 + r2 * 256 + r3)
    (s0 * 16777216 + s1 * 65536 + s2 * 256 + s3) delta (rounds / 2)
    (x1 * 16777216 + x2 * 65536 + x3 * 256 + x4,
      x5 * 16777216 + x6 * 65536 + x7 * 256 + x8,
      (delta * (rounds / 2)) &&& 0xffffffff) with hD
  have hd1 : D.1 < 4294967296 := by
    rw [hD]
    exact (teaDecLoop_lt _ _ _ _ delta (rounds / 2) _ _ _ hX0 hX1).1
  have hd2 : D.2.1 < 4294967296 := by
    rw [hD]
    exact (teaDecLoop_lt _ _ _ _ delta (rounds / 2) _ _ _ hX0 hX1).2
  have htake : (put32 D.1 ++ put32 D.2.1).take 4 = put32 D.1 :=
    List.take_left' rfl
  have hdrop : (put32 D.1 ++ put32 D.2.1).drop 4 = put32 D.2.1 :=
    List.drop_left' rfl
  have htake2 : (put32 D.2.1).take 4 = put32 D.2.1 := by
    simp [put32]
  have hget2 : teaGetValues key (put32 D.1 ++ put32 D.2.1) =
      Except.ok (D.1, D.2.1,
        p0 * 16777216 + p1 * 65536 + p2 * 256 + p3,
        q0 * 16777216 + q1 * 65536 + q2 * 256 + q3,
        r0 * 16777216 + r1 * 65536 + r2 * 256 + r3,
        s0 * 16777216 + s1 * 65536 + s2 * 256 + s3) := by
    simp only [teaGetValues, htake, hdrop, htake2, e1, e2, e3, e4,
      unpackBE4_put32 D.1 hd1, unpackBE4_put32 D.2.1 hd2,
      Bind.bind, Except.bind]
    simp [unpackBE4, Bind.bind, Except.bind]
  simp only [teaEncryptData, hget2, Bind.bind, Except.bind]
  have hsum0 : D.2.2 = 0 := by
    rw [hD, hmask,
      show (delta * (rounds / 2)) % 4294967296 =
        (0 + delta * (rounds / 2)) % 4294967296 by ring_nf]
    rw [teaDecLoop_sum]
  have hzero : (0 : Nat) &&& 0xffffffff = 0 := rfl
  have heta : (D.1, D.2.1, (0 : Nat)) = D := by
    rw [← hsum0]
  rw [hzero, heta, hD, teaEncLoop_inverts _ _ _ _ delta (rounds / 2) _ _ _
    hX0 hX1 hS0]
  simp only [put32_unpack x1 x2 x3 x4 hb1 hb2 hb3 hb4,
    put32_unpack x5 x6 x7 x8 hb5 hb6 hb7 hb8]
  rfl

/-- Witness for `tea_roundtrip` at a concrete key, block and both round
counts named by the specification (2 and 64). -/
theorem tea_roundtrip_witness :
    ((teaDecryptData (List.replicate 16 7) 64 0x9e3779b9
        [1, 2, 3, 4, 5, 6, 7, 8]).bind
      (teaEncryptData (List.replicate 16 7) 64 0x9e3779b9) =
        Except.ok [1, 2, 3, 4, 5, 6, 7, 8]) ∧
    ((teaDecryptData (List.replicate 16 7) 2 0x9e3779b9
        [1, 2, 3, 4, 5, 6, 7, 8]).bind
      (teaEncryptData (List.replicate 16 7) 2 0x9e3779b9) =
        Except.ok [1, 2, 3, 4, 5, 6, 7, 8]) :=
  ⟨tea_roundtrip (List.replicate 16 7) [1, 2, 3, 4, 5, 6, 7, 8] 64 0x9e3779b9
      (by decide) (by decide) (by decide) (by decide),
    tea_roundtrip (List.replicate 16 7) [1, 2, 3, 4, 5, 6, 7, 8] 2 0x9e3779b9
      (by decide) (by decide) (by decide) (by decide)⟩

/-! ### Claims C1 and C2: `TC_TEACipher.decrypt` never returns -/

theorem teaDecryptData_ok (key src : List Nat) (rounds delta : Nat)
    (hkey : key.length = 16) (hsrc : 8 ≤ src.length) :
    ∃ d1 d2, teaDecryptData key rounds delta src =
      Except.ok (put32 d1 ++ put32 d2) := by
  obtain ⟨a1, a2, a3, a4, f1⟩ := list_len4 (src.take 4) (by simp; omega)
  obtain ⟨a5, a6, a7, a8, f2⟩ := list_len4 ((src.drop 4).take 4) (by simp; omega)
  obtain ⟨p0, p1, p2, p3, e1⟩ := list_len4 (key.take 4) (by simp [hkey])
  obtain ⟨q0, q1, q2, q3, e2⟩ := list_len4 ((key.drop 4).take 4) (by simp [hkey])
  obtain ⟨r0, r1, r2, r3, e3⟩ := list_len4 ((key.drop 8).take 4) (by simp [hkey])
  obtain ⟨s0, s1, s2, s3, e4⟩ := list_len4 (key.drop 12) (by simp [hkey])
  refine ⟨(teaDecLoop (p0 * 16777216 + p1 * 65536 + p2 * 256 + p3)
      (q0 * 16777216 + q1 * 65536 + q2 * 256 + q3)
      (r0 * 16777216 + r1 * 65536 + r2 * 256 + r3)
      (s0 * 16777216 + s1 * 65536 + s2 * 256 + s3) delta (rounds / 2)
      (a1 * 16777216 + a2 * 65536 + a3 * 256 + a4,
        a5 * 16777216 + a6 * 65536 + a7 * 256 + a8,
        delta * (rounds / 2) &&& 0xffffffff)).1,
    (teaDecLoop (p0 * 16777216 + p1 * 65536 + p2 * 256 + p3)
      (q0 * 16777216 + q1 * 65536 + q2 * 256 + q3)
      (r0 * 16777216 + r1 * 65536 + r2 * 256 + r3)
      (s0 * 16777216 + s1 * 65536 + s2 * 256 + s3) delta (rounds / 2)
      (a1 * 16777216 + a2 * 65536 + a3 * 256 + a4,
        a5 * 16777216 + a6 * 65536 + a7 * 256 + a8,
        delta * (rounds / 2) &&& 0xffffffff)).2.1, ?_⟩
  simp only [teaDecryptData, teaGetValues, f1, f2, e1, e2, e3, e4, unpackBE4,
    Bind.bind, Except.bind]

theorem put32_append_length (d1 d2 : Nat) :
    (put32 d1 ++ put32 d2).length = 8 := by simp [put32]

/-- The salt-skipping loop started from the state that
`TC_TEACipher.decrypt` builds when the pad check passed (`pad_len = 6`,
hence `dest_idx = 7`): it runs exactly three iterations — skip one
position, pull one chained block, skip one more position — and stops with
`i = 3`, `dest_idx = 1` and, crucially, `iv_prev` still the empty byte
string. -/
theorem tcSaltLoop_run (key src dest : List Nat) (rounds delta fuel : Nat)
    (hkey : key.length = 16) (hsrc : 16 ≤ src.length) (hdest : dest.length = 8) :
    ∃ d' : List Nat, d'.length = 8 ∧
      tcSaltLoop key rounds delta src (fuel + 1 + 1 + 1 + 1)
        ⟨1, 7, [], [], dest, 8⟩ =
        Except.ok ⟨3, 1, [], (src.drop 8).take 8, d', 16⟩ := by
  have hivlen : ((src.drop 8).take 8).length = 8 := by simp; omega
  have hxor : pyStrxor (dest.take 8) (((src.drop 8).take 8).take 8) =
      Except.ok (List.zipWith (· ^^^ ·) (dest.take 8) (((src.drop 8).take 8).take 8)) := by
    rw [pyStrxor, if_pos]
    simp [hdest]
    omega
  have hzlen : 8 ≤ (List.zipWith (· ^^^ ·) (dest.take 8)
      (((src.drop 8).take 8).take 8)).length := by
    simp [hdest]
    omega
  obtain ⟨d1', d2', hd'⟩ := teaDecryptData_ok key _ rounds delta hkey hzlen
  refine ⟨put32 d1' ++ put32 d2', put32_append_length d1' d2', ?_⟩
  have hblock : tcCryptBlock key rounds delta src ⟨2, 8, [], [], dest, 8⟩ =
      Except.ok ⟨2, 0, [], (src.drop 8).take 8, put32 d1' ++ put32 d2', 16⟩ := by
    simp only [tcCryptBlock, hxor, hd', Bind.bind, Except.bind]
  simp only [tcSaltLoop]
  norm_num
  rw [hblock]
  simp only [Bind.bind, Except.bind]
  norm_num

theorem tcZeroCheckGo_nil_iv (d : List Nat) (idx count : Nat) (h : idx < d.length) :
    tcZeroCheckGo d [] idx (count + 1) = Except.error PyErr.indexError := by
  simp [tcZeroCheckGo, pyIndex_ok d idx h, pyIndex_nil, Bind.bind, Except.bind]

theorem tcOutLoop_exit (key src out : List Nat) (rounds delta outLen fuel pos : Nat)
    (st : TcState) (h : ¬pos < outLen) :
    tcOutLoop key rounds delta src outLen (fuel + 1) pos out st =
      Except.ok (out, st) := by
  simp only [tcOutLoop]
  rw [if_neg h]

theorem tcOutLoop_iv_error (key src out : List Nat) (rounds delta outLen fuel pos : Nat)
    (st : TcState) (hpos : pos < outLen) (hlt : st.destIdx < 8)
    (hd : st.destIdx < st.destData.length) (hiv : st.ivPrev = []) :
    tcOutLoop key rounds delta src outLen (fuel + 1) pos out st =
      Except.error PyErr.indexError := by
  simp only [tcOutLoop]
  rw [if_pos hpos, if_pos hlt, pyIndex_ok _ _ hd, hiv, pyIndex_nil]
  simp [Bind.bind, Except.bind]

/-- C2 (confirmed): for every input accepted by the validation of
`TC_TEACipher.decrypt` (length a multiple of 8, at least 16 bytes, pad
length 6), the method never returns normally: after the salt loop the
first chained-block step has set `iv_prev` to the old — still empty —
`iv_cur`, so the first output-byte computation (or, for 16-byte inputs,
the zero-check loop) indexes the empty `iv_prev` and raises `IndexError`. -/
theorem tcDecrypt_always_index_error (key src : List Nat) (rounds delta : Nat)
    (hkey : key.length = 16) (h8 : src.length % 8 = 0) (h16 : 16 ≤ src.length)
    (hpad : tcPadLen key rounds delta src = Except.ok 6) :
    tcDecrypt key rounds delta src = Except.error PyErr.indexError := by
  obtain ⟨d1, d2, hdest⟩ := teaDecryptData_ok key src rounds delta hkey (by omega)
  have hpl : (put32 d1 ++ put32 d2).getD 0 0 &&& 7 = 6 := by
    rw [tcPadLen, hdest] at hpad
    simpa [Except.map] using hpad
  have hdlen : (put32 d1 ++ put32 d2).length = 8 := put32_append_length d1 d2
  simp only [tcDecrypt]
  rw [if_neg (by omega : ¬src.length % 8 ≠ 0),
    if_neg (by omega : ¬src.length < 16), hdest]
  simp only [Bind.bind, Except.bind]
  rw [hpl, if_neg (by decide : ¬(6 + 2 ≠ 8))]
  rw [show src.length + 16 = src.length + 12 + 1 + 1 + 1 + 1 by omega]
  obtain ⟨d', hdlen', hsalt⟩ := tcSaltLoop_run key src (put32 d1 ++ put32 d2)
    rounds delta (src.length + 12) hkey h16 hdlen
  norm_num
  rw [hsalt]
  simp only [Bind.bind, Except.bind]
  rw [show 2 * src.length + 16 = 2 * src.length + 15 + 1 by omega]
  by_cases hn : src.length = 16
  · have hout0 : src.length - 6 - 2 - 7 - 1 = 0 := by omega
    rw [hout0, tcOutLoop_exit key src _ rounds delta 0 _ 0 _ (by omega)]
    simp only [Bind.bind, Except.bind]
    rw [tcZeroCheck, show (6 : Nat) = 5 + 1 from rfl]
    rw [tcZeroCheckGo_nil_iv d' 1 5 (by omega)]
  · have houtpos : 0 < src.length - 6 - 2 - 7 - 1 := by omega
    rw [tcOutLoop_iv_error key src
      (List.replicate (src.length - 6 - 2 - 7 - 1) 0) rounds delta
      (src.length - 6 - 2 - 7 - 1) (2 * src.length + 15) 0
      ⟨3, 1, [], (src.drop 8).take 8, d', 16⟩ houtpos
      (by show (1 : Nat) < 8; decide)
      (by show (1 : Nat) < d'.length; omega) rfl]

set_option maxRecDepth 100000 in
/-- C1 (code bug): a concrete well-formed envelope — 16 bytes, multiple of
8, whose plain-TEA-decrypted first block is `[6, 0, 0, 0, 0, 0, 0, 0]`
(pad length 6) — on which the specified behaviour is to return the
`16 - 16 = 0`-byte plaintext, but `TC_TEACipher.decrypt` raises
`IndexError` instead (it indexes the empty `iv_prev`). -/
theorem tcDecrypt_failing_input :
    (tcPadLen (List.replicate 16 0) 64 0x9e3779b9
        [71, 221, 177, 141, 84, 67, 247, 209, 0, 0, 0, 0, 0, 0, 0, 0] =
      Except.ok 6) ∧
    ([71, 221, 177, 141, 84, 67, 247, 209, 0, 0, 0, 0, 0, 0, 0, 0] :
      List Nat).length % 8 = 0 ∧
    tcDecrypt (List.replicate 16 0) 64 0x9e3779b9
        [71, 221, 177, 141, 84, 67, 247, 209, 0, 0, 0, 0, 0, 0, 0, 0] =
      Except.error PyErr.indexError := by
  refine ⟨by decide, by decide, by decide⟩

set_option maxRecDepth 100000 in
/-- Witness for `tcDecrypt_always_index_error` at the same concrete
envelope. -/
theorem tcDecrypt_always_index_error_witness :
    tcDecrypt (List.replicate 16 0) 64 0x9e3779b9
        [71, 221, 177, 141, 84, 67, 247, 209, 0, 0, 0, 0, 0, 0, 0, 0] =
      Except.error PyErr.indexError :=
  tcDecrypt_always_index_error (List.replicate 16 0)
    [71, 221, 177, 141, 84, 67, 247, 209, 0, 0, 0, 0, 0, 0, 0, 0] 64
    0x9e3779b9 (by decide) (by decide) (by decide) (by decide)

/-! ### The RC4 keystream characterization -/

theorem rc4StepN_succ_right (L n : Nat) (st : WalkSt) :
    rc4StepN L (n + 1) st = rc4Step L (rc4StepN L n st) := by
  induction n generalizing st with
  | zero => rfl
  | succ m ih =>
    rw [show m + 1 + 1 = m + 1 + 1 from rfl]
    calc rc4StepN L (m + 1 + 1) st = rc4StepN L (m + 1) (rc4Step L st) := rfl
    _ = rc4Step L (rc4StepN L (m + 1) st) := ih (rc4Step L st)

theorem rc4EmitPhase_eq (L : Nat) (box : List Nat) (buf : List Nat) :
    ∀ m, rc4EmitPhase L (rc4StepN L m ⟨box, 0, 0⟩) buf =
      zipXor buf (rc4EmitSeq L box m buf.length) := by
  induction buf with
  | nil => intro m; rfl
  | cons b rest ih =>
    intro m
    show (b ^^^ rc4Emit L (rc4Step L (rc4StepN L m ⟨box, 0, 0⟩))) ::
        rc4EmitPhase L (rc4Step L (rc4StepN L m ⟨box, 0, 0⟩)) rest = _
    rw [← rc4StepN_succ_right, ih (m + 1)]
    rfl

theorem rc4KSRange_walk (inst : RC4Inst) :
    ∀ (n off sk : Nat), 128 ≤ off → off % 5120 + n ≤ 5120 →
      rc4SegmentSkip inst (off / 5120) = Except.ok sk →
      rc4KSRange inst off n =
        Except.ok (rc4EmitSeq inst.key.length inst.box (off % 5120 + sk) n) := by
  intro n
  induction n with
  | zero => intro off sk _ _ _; rfl
  | succ m ih =>
    intro off sk hoff hseg hsk
    have hks : rc4KS inst off = Except.ok (rc4Emit inst.key.length
        (rc4StepN inst.key.length (off % 5120 + sk + 1) ⟨inst.box, 0, 0⟩)) := by
      rw [rc4KS, if_neg (by omega), hsk]
      rfl
    rcases Nat.eq_zero_or_pos m with hm | hm
    · subst hm
      simp only [rc4KSRange, hks, Bind.bind, Except.bind]
      rfl
    have hmod : (off + 1) % 5120 = off % 5120 + 1 := by omega
    have hdiv : (off + 1) / 5120 = off / 5120 := by omega
    have htail := ih (off + 1) sk (by omega) (by omega) (by rw [hdiv]; exact hsk)
    simp only [rc4KSRange, hks, htail, Bind.bind, Except.bind]
    rw [rc4EmitSeq]
    have : (off + 1) % 5120 + sk = off % 5120 + sk + 1 := by omega
    rw [this]

theorem rc4EncAnother_eq (inst : RC4Inst) (buf : List Nat) (off : Nat)
    (hoff : 128 ≤ off) (hseg : off % 5120 + buf.length ≤ 5120) (hne : buf ≠ []) :
    rc4EncAnother inst buf off =
      (rc4KSRange inst off buf.length).map (fun ks => zipXor buf ks) := by
  cases hsk : rc4SegmentSkip inst (off / 5120) with
  | error e =>
    cases buf with
    | nil => exact absurd rfl hne
    | cons b rest =>
      have hks : rc4KS inst (off : Nat) = Except.error e := by
        rw [rc4KS, if_neg (by omega), hsk]
        rfl
      simp only [rc4EncAnother, rc4KSRange, hsk, hks, Bind.bind, Except.bind,
        Except.map, List.length_cons]
  | ok sk =>
    rw [rc4KSRange_walk inst buf.length off sk hoff hseg hsk]
    simp only [rc4EncAnother, hsk, Bind.bind, Except.bind, Except.map]
    rw [rc4EmitPhase_eq inst.key.length inst.box buf (off % 5120 + sk)]

theorem rc4Enc1st_eq (inst : RC4Inst) (buf : List Nat) :
    ∀ off, off + buf.length ≤ 128 →
      rc4Enc1st inst buf off =
        (rc4KSRange inst off buf.length).map (fun ks => zipXor buf ks) := by
  induction buf with
  | nil => intro off _; rfl
  | cons b rest ih =>
    intro off hend
    have hks : rc4KS inst off = (rc4SegmentSkip inst off).map
        (fun s => inst.key.getD s 0) := by
      rw [rc4KS, if_pos (by simp at hend; omega)]
    cases hsk : rc4SegmentSkip inst off with
    | error e =>
      simp only [rc4Enc1st, rc4KSRange, List.length_cons, hks, hsk,
        Bind.bind, Except.bind, Except.map]
    | ok s =>
      have htail := ih (off + 1) (by simp at hend ⊢; omega)
      cases hrest : rc4KSRange inst (off + 1) rest.length with
      | error e =>
        simp only [rc4Enc1st, rc4KSRange, List.length_cons, hks, hsk, htail,
          hrest, Bind.bind, Except.bind, Except.map]
      | ok ks =>
        simp only [rc4Enc1st, rc4KSRange, List.length_cons, hks, hsk, htail,
          hrest, Bind.bind, Except.bind, Except.map]
        rfl

theorem rc4KSRange_len (inst : RC4Inst) :
    ∀ n off l, rc4KSRange inst off n = Except.ok l → l.length = n := by
  intro n
  induction n with
  | zero =>
    intro off l h
    simp only [rc4KSRange] at h
    cases h
    rfl
  | succ m ih =>
    intro off l h
    simp only [rc4KSRange, Bind.bind, Except.bind] at h
    cases hks : rc4KS inst off with
    | error e => rw [hks] at h; cases h
    | ok v =>
      rw [hks] at h
      cases hrest : rc4KSRange inst (off + 1) m with
      | error e => rw [hrest] at h; cases h
      | ok ks =>
        rw [hrest] at h
        cases h
        simp [ih (off + 1) ks hrest]

theorem rc4KSRange_add (inst : RC4Inst) :
    ∀ a off b, rc4KSRange inst off (a + b) = (do
      let xs ← rc4KSRange inst off a
      let ys ← rc4KSRange inst (off + a) b
      Except.ok (xs ++ ys)) := by
  intro a
  induction a with
  | zero =>
    intro off b
    simp only [rc4KSRange, Nat.zero_add, Nat.add_zero, Bind.bind, Except.bind]
    cases rc4KSRange inst off b <;> rfl
  | succ m ih =>
    intro off b
    rw [show m + 1 + b = (m + b) + 1 by omega]
    simp only [rc4KSRange, Bind.bind, Except.bind]
    cases hks : rc4KS inst off with
    | error e => rfl
    | ok v =>
      rw [ih (off + 1) b]
      simp only [Bind.bind, Except.bind]
      rw [show off + (m + 1) = off + 1 + m by omega]
      cases hxs : rc4KSRange inst (off + 1) m with
      | error e => rfl
      | ok xs =>
        cases hys : rc4KSRange inst (off + 1 + m) b with
        | error e => rfl
        | ok ys => rfl

theorem rc4DecryptLoop_eq (inst : RC4Inst) :
    ∀ fuel (P R : List Nat) (off : Nat), R ≠ [] → off % 5120 = 0 →
      128 ≤ off → R.length < fuel →
      rc4DecryptLoop inst fuel (P ++ R) P.length off =
        (rc4KSRange inst off R.length).map (fun ks => P ++ zipXor R ks) := by
  intro fuel
  induction fuel with
  | zero => intro P R off _ _ _ h; omega
  | succ f ih =>
    intro P R off hne hmod hoff hfuel
    have hpend : (P ++ R).length - P.length = R.length := by simp
    have hdrop : (P ++ R).drop P.length = R := List.drop_left P R
    have htakeP : (P ++ R).take P.length = P := List.take_left P R
    simp only [rc4DecryptLoop, hpend, hdrop, htakeP]
    by_cases h51 : 5120 < R.length
    · rw [if_pos h51]
      have htk : (R.take 5120).length = 5120 := by simp; omega
      have henc := rc4EncAnother_eq inst (R.take 5120) off hoff (by omega)
        (by intro hc; rw [hc] at htk; simp at htk)
      rw [htk] at henc
      rw [henc, show R.length = 5120 + (R.length - 5120) by omega,
        rc4KSRange_add inst 5120 off (R.length - 5120)]
      cases hks1 : rc4KSRange inst off 5120 with
      | error e =>
        simp only [Except.map, Bind.bind, Except.bind]
      | ok ks1 =>
        have hlks1 : ks1.length = 5120 := rc4KSRange_len inst 5120 off ks1 hks1
        have hdecl : (zipXor (R.take 5120) ks1).length = 5120 := by
          rw [zipXor_length, htk, hlks1]
          omega
        simp only [Except.map, Bind.bind, Except.bind]
        have hdrop2 : (P ++ R).drop (P.length + 5120) = R.drop 5120 := by
          simp [List.drop_append]
        have hlen' : P.length + 5120 = (P ++ zipXor (R.take 5120) ks1).length := by
          simp [hdecl]
        have hRd : (R.drop 5120) ≠ [] := by
          intro hc
          have h0 : (R.drop 5120).length = 0 := by rw [hc]; rfl
          simp at h0
          omega
        rw [hdrop2, hlen', ih (P ++ zipXor (R.take 5120) ks1)
          (R.drop 5120) (off + 5120) hRd (by omega) (by omega)
          (by simp; omega)]
        rw [show (R.drop 5120).length = R.length - 5120 by simp]
        cases hks2 : rc4KSRange inst (off + 5120) (R.length - 5120) with
        | error e => simp only [Except.map, Bind.bind, Except.bind]
        | ok ks2 =>
          simp only [Except.map, Bind.bind, Except.bind, Except.ok.injEq]
          have hz : zipXor R (ks1 ++ ks2) =
              zipXor (R.take 5120) ks1 ++ zipXor (R.drop 5120) ks2 := by
            conv_lhs => rw [← List.take_append_drop 5120 R]
            exact zipXor_append _ _ _ _ (by rw [htk, hlks1])
          rw [hz]
          simp [List.append_assoc]
    · rw [if_neg h51, if_pos (List.length_pos.mpr hne)]
      have henc := rc4EncAnother_eq inst R off hoff (by omega) hne
      rw [henc]
      cases hks : rc4KSRange inst off R.length with
      | error e =>
        simp only [Except.map, Bind.bind, Except.bind]
      | ok ks =>
        simp only [Except.map, Bind.bind, Except.bind]

theorem rc4DecryptRest_eq (inst : RC4Inst) (P R : List Nat) (off : Nat)
    (hne : R ≠ []) (hoff : 128 ≤ off) :
    rc4DecryptRest inst (P ++ R) P.length off =
      (rc4KSRange inst off R.length).map (fun ks => P ++ zipXor R ks) := by
  have hpend : (P ++ R).length - P.length = R.length := by simp
  have hdrop : (P ++ R).drop P.length = R := List.drop_left P R
  have htakeP : (P ++ R).take P.length = P := List.take_left P R
  have hRpos : 0 < R.length := List.length_pos.mpr hne
  by_cases hmod : off % 5120 = 0
  · simp only [rc4DecryptRest]
    rw [if_neg (by omega)]
    exact rc4DecryptLoop_eq inst ((P ++ R).length + 1) P R off hne hmod hoff
      (by simp; omega)
  · simp only [rc4DecryptRest, hpend, hdrop, htakeP]
    rw [if_pos hmod]
    have hc1 : 0 < 5120 - off % 5120 := by omega
    by_cases hsmall : R.length ≤ 5120 - off % 5120
    · have hblk : min R.length (5120 - off % 5120) = R.length :=
        min_eq_left hsmall
      rw [hblk, List.take_length]
      rw [rc4EncAnother_eq inst R off hoff (by omega) hne]
      cases hks : rc4KSRange inst off R.length with
      | error e => simp only [Except.map, Bind.bind, Except.bind]
      | ok ks =>
        simp only [Except.map, Bind.bind, Except.bind]
        rw [if_pos (by simp)]
        have hd0 : (P ++ R).drop (P.length + R.length) = [] :=
          List.drop_eq_nil_of_le (by simp)
        rw [hd0]
        simp
    · have hblk : min R.length (5120 - off % 5120) = 5120 - off % 5120 :=
        min_eq_right (by omega)
      rw [hblk]
      have htk : (R.take (5120 - off % 5120)).length = 5120 - off % 5120 := by
        simp
        omega
      have henc := rc4EncAnother_eq inst (R.take (5120 - off % 5120)) off hoff
        (by omega) (by intro hcon; rw [hcon] at htk; simp at htk; omega)
      rw [htk] at henc
      rw [henc, show R.length = (5120 - off % 5120) +
        (R.length - (5120 - off % 5120)) by omega,
        rc4KSRange_add inst (5120 - off % 5120) off _]
      cases hks1 : rc4KSRange inst off (5120 - off % 5120) with
      | error e => simp only [Except.map, Bind.bind, Except.bind]
      | ok ks1 =>
        have hlks1 : ks1.length = 5120 - off % 5120 :=
          rc4KSRange_len inst _ off ks1 hks1
        have hdecl : (zipXor (R.take (5120 - off % 5120)) ks1).length =
            5120 - off % 5120 := by
          rw [zipXor_length, htk, hlks1]
          omega
        simp only [Except.map, Bind.bind, Except.bind]
        rw [if_neg (by simp; omega)]
        have hdrop2 : (P ++ R).drop (P.length + (5120 - off % 5120)) =
            R.drop (5120 - off % 5120) := by
          simp [List.drop_append]
        have hlen' : P.length + (5120 - off % 5120) =
            (P ++ zipXor (R.take (5120 - off % 5120)) ks1).length := by
          simp [hdecl]
        have hRd : R.drop (5120 - off % 5120) ≠ [] := by
          intro hcon
          have h0 : (R.drop (5120 - off % 5120)).length = 0 := by rw [hcon]; rfl
          simp at h0
          omega
        rw [hdrop2, hlen', rc4DecryptLoop_eq inst ((P ++ R).length + 1)
          (P ++ zipXor (R.take (5120 - off % 5120)) ks1)
          (R.drop (5120 - off % 5120)) (off + (5120 - off % 5120)) hRd
          (by omega) (by omega) (by simp; omega)]
        rw [show (R.drop (5120 - off % 5120)).length =
          R.length - (5120 - off % 5120) by simp]
        cases hks2 : rc4KSRange inst (off + (5120 - off % 5120))
            (R.length - (5120 - off % 5120)) with
        | error e => simp only [Except.map, Bind.bind, Except.bind]
        | ok ks2 =>
          simp only [Except.map, Bind.bind, Except.bind, Except.ok.injEq]
          have hz : zipXor R (ks1 ++ ks2) =
              zipXor (R.take (5120 - off % 5120)) ks1 ++
                zipXor (R.drop (5120 - off % 5120)) ks2 := by
            conv_lhs => rw [← List.take_append_drop (5120 - off % 5120) R]
            exact zipXor_append _ _ _ _ (by rw [htk, hlks1])
          rw [hz]
          simp [List.append_assoc]

/-- The central characterization of `QMCv2_RC4Cipher.decrypt`: for a
nonempty buffer it xors the buffer with the position-pure keystream
`rc4KS`, propagating the error of the first failing segment-skip
computation. -/
theorem rc4Decrypt_eq_keystream (inst : RC4Inst) (src : List Nat) (off : Nat)
    (hne : src ≠ []) :
    rc4Decrypt inst src off =
      (rc4KSRange inst off src.length).map (fun ks => (zipXor src ks, inst)) := by
  have hspos : 0 < src.length := List.length_pos.mpr hne
  by_cases h128 : off < 128
  · simp only [rc4Decrypt]
    rw [if_pos h128]
    by_cases hall : src.length ≤ 128 - off
    · have hblk : min src.length (128 - off) = src.length := min_eq_left hall
      rw [hblk, List.take_length, rc4Enc1st_eq inst src off (by omega)]
      cases hks : rc4KSRange inst off src.length with
      | error e => simp only [Except.map, Bind.bind, Except.bind]
      | ok ks =>
        simp only [Except.map, Bind.bind, Except.bind]
        rw [if_pos (by omega : src.length - src.length = 0), List.drop_length]
        simp
    · have hblk : min src.length (128 - off) = 128 - off :=
        min_eq_right (by omega)
      rw [hblk]
      have htk : (src.take (128 - off)).length = 128 - off := by
        simp
        omega
      rw [rc4Enc1st_eq inst (src.take (128 - off)) off (by rw [htk]; omega),
        htk]
      have hcond : ¬(src.length - (128 - off) = 0) := by omega
      simp only [if_neg hcond]
      rw [show src.length = (128 - off) + (src.length - (128 - off)) by omega,
        rc4KSRange_add inst (128 - off) off _]
      cases hks1 : rc4KSRange inst off (128 - off) with
      | error e => simp only [Except.map, Bind.bind, Except.bind]
      | ok ks1 =>
        have hlks1 : ks1.length = 128 - off :=
          rc4KSRange_len inst _ off ks1 hks1
        have hdecl : (zipXor (src.take (128 - off)) ks1).length = 128 - off := by
          rw [zipXor_length, htk, hlks1]
          omega
        simp only [Except.map, Bind.bind, Except.bind]
        rw [show off + (128 - off) = 128 by omega]
        have hdne : src.drop (128 - off) ≠ [] := by
          intro hcon
          have h0 : (src.drop (128 - off)).length = 0 := by rw [hcon]; rfl
          simp at h0
          omega
        have hrest := rc4DecryptRest_eq inst
          (zipXor (src.take (128 - off)) ks1) (src.drop (128 - off)) 128
          hdne (by norm_num)
        rw [hdecl] at hrest
        rw [hrest, show (src.drop (128 - off)).length =
          src.length - (128 - off) by simp]
        cases hks2 : rc4KSRange inst 128 (src.length - (128 - off)) with
        | error e => simp only [Except.map, Bind.bind, Except.bind]
        | ok ks2 =>
          simp only [Except.map, Bind.bind, Except.bind, Except.ok.injEq]
          have hz : zipXor src (ks1 ++ ks2) =
              zipXor (src.take (128 - off)) ks1 ++
                zipXor (src.drop (128 - off)) ks2 := by
            conv_lhs => rw [← List.take_append_drop (128 - off) src]
            exact zipXor_append _ _ _ _ (by rw [htk, hlks1])
          rw [hz]
  · simp only [rc4Decrypt]
    rw [if_neg h128]
    have hrest := rc4DecryptRest_eq inst [] src off hne (by omega)
    simp only [List.nil_append, List.length_nil] at hrest
    rw [hrest]
    cases hks : rc4KSRange inst off src.length with
    | error e => simp only [Except.map]
    | ok ks => simp only [Except.map]

theorem rc4DecryptLoop_nil (inst : RC4Inst) (off : Nat) :
    rc4DecryptLoop inst (([] : List Nat).length + 1) [] 0 off = Except.ok [] := by
  simp only [rc4DecryptLoop]
  norm_num

theorem rc4DecryptBytes_nil (inst : RC4Inst) (off : Nat) :
    rc4DecryptBytes inst [] off =
      if off < 128 ∨ off % 5120 = 0 then Except.ok []
      else (rc4SegmentSkip inst (off / 5120)).map (fun _ => []) := by
  by_cases h128 : off < 128
  · rw [if_pos (Or.inl h128)]
    simp [rc4DecryptBytes, rc4Decrypt, rc4Enc1st, h128, Except.map,
      Bind.bind, Except.bind]
  · by_cases hmod : off % 5120 = 0
    · rw [if_pos (Or.inr hmod)]
      simp only [rc4DecryptBytes, rc4Decrypt, rc4DecryptRest]
      rw [if_neg h128, if_neg (by omega)]
      rw [rc4DecryptLoop_nil inst off]
      rfl
    · rw [if_neg (by tauto)]
      cases hsk : rc4SegmentSkip inst (off / 5120) with
      | error e =>
        simp [rc4DecryptBytes, rc4Decrypt, rc4DecryptRest, rc4EncAnother,
          h128, hmod, hsk, Except.map, Bind.bind, Except.bind]
      | ok sk =>
        simp [rc4DecryptBytes, rc4Decrypt, rc4DecryptRest, rc4EncAnother,
          rc4EmitPhase, h128, hmod, hsk, Except.map, Bind.bind, Except.bind]

theorem rc4DecryptBytes_nil_ok (inst : RC4Inst) (off : Nat) (v : List Nat)
    (h : rc4DecryptBytes inst [] off = Except.ok v) : v = [] := by
  rw [rc4DecryptBytes_nil] at h
  split at h
  · cases h
    rfl
  · cases hsk : rc4SegmentSkip inst (off / 5120) with
    | error e => rw [hsk] at h; simp [Except.map] at h
    | ok sk =>
      rw [hsk] at h
      simp [Except.map] at h
      exact h

/-- C5 (binary split): decrypting a concatenation of two nonempty buffers
equals decrypting each at its own absolute offset and concatenating, with
identical error behaviour. -/
theorem rc4DecryptBytes_append (inst : RC4Inst) (B1 B2 : List Nat) (off : Nat)
    (h1 : B1 ≠ []) (h2 : B2 ≠ []) :
    rc4DecryptBytes inst (B1 ++ B2) off = (do
      let r1 ← rc4DecryptBytes inst B1 off
      let r2 ← rc4DecryptBytes inst B2 (off + B1.length)
      Except.ok (r1 ++ r2)) := by
  have hne : B1 ++ B2 ≠ [] := by simp [h1]
  simp only [rc4DecryptBytes, rc4Decrypt_eq_keystream inst _ _ hne,
    rc4Decrypt_eq_keystream inst B1 off h1,
    rc4Decrypt_eq_keystream inst B2 (off + B1.length) h2]
  rw [List.length_append, rc4KSRange_add inst B1.length off B2.length]
  cases hks1 : rc4KSRange inst off B1.length with
  | error e => simp [Except.map, Bind.bind, Except.bind]
  | ok ks1 =>
    cases hks2 : rc4KSRange inst (off + B1.length) B2.length with
    | error e => simp [Except.map, Bind.bind, Except.bind]
    | ok ks2 =>
      simp only [Except.map, Bind.bind, Except.bind, Except.ok.injEq]
      exact zipXor_append B1 B2 ks1 ks2
        (rc4KSRange_len inst B1.length off ks1 hks1).symm

/-- C5 (confirmed): decrypting a buffer in one `QMCv2_RC4Cipher.decrypt`
call equals decrypting any partition of it into consecutive nonempty
sub-ranges at their respective absolute offsets and concatenating the
results — in particular across the 128-byte and 5120-byte segment
boundaries, since the keystream is a pure function of absolute position. -/
theorem rc4_partition_decrypt (inst : RC4Inst) (chunks : List (List Nat))
    (off : Nat) (hnil : chunks ≠ []) (hc : ∀ c ∈ chunks, c ≠ []) :
    rc4DecryptParts inst chunks off =
      rc4DecryptBytes inst chunks.flatten off := by
  induction chunks generalizing off with
  | nil => exact absurd rfl hnil
  | cons c cs ih =>
    cases cs with
    | nil =>
      rw [show ([c] : List (List Nat)).flatten = c ++ [].flatten from
        List.flatten_cons, show ([] : List (List Nat)).flatten = [] from rfl,
        List.append_nil]
      cases hr : rc4DecryptBytes inst c off with
      | error e => simp [rc4DecryptParts, Bind.bind, Except.bind, hr]
      | ok r => simp [rc4DecryptParts, Bind.bind, Except.bind, hr]
    | cons d ds =>
      have hdne : d ≠ [] := hc d (by simp)
      have hjoin_ne : (d :: ds).flatten ≠ [] := by
        rw [List.flatten_cons]
        intro hcon
        exact hdne (List.append_eq_nil.mp hcon).1
      rw [show (c :: d :: ds).flatten = c ++ (d :: ds).flatten from
        List.flatten_cons]
      rw [rc4DecryptBytes_append inst c (d :: ds).flatten off (hc c (by simp))
        hjoin_ne]
      have hih := ih (off + c.length) (by simp)
        (fun x hx => hc x (by simp [hx]))
      show (do
          let r ← rc4DecryptBytes inst c off
          let rs ← rc4DecryptParts inst (d :: ds) (off + c.length)
          Except.ok (r ++ rs)) = _
      cases hr : rc4DecryptBytes inst c off with
      | error e => simp [Bind.bind, Except.bind]
      | ok r =>
        simp only [Bind.bind, Except.bind]
        rw [hih]

/-- Witness for `rc4_partition_decrypt`: the instance built from key
`[1]`, a two-chunk partition straddling the 128-byte boundary. -/
theorem rc4_partition_decrypt_witness :
    rc4DecryptParts ⟨[1], [0], 1⟩ [[10], [20]] 127 =
      rc4DecryptBytes ⟨[1], [0], 1⟩ [[10], [20]].flatten 127 :=
  rc4_partition_decrypt ⟨[1], [0], 1⟩ [[10], [20]] 127 (by decide)
    (by intro c hcm; fin_cases hcm <;> decide)

/-- C7 (counterexample): the involution fails for `QMCv2_RC4Cipher` at the
constructor-valid key `b"\x00"`: the constructor accepts it (nonzero
length, box `[0]`, hash 1), yet `decrypt(decrypt([0], 0), 0)` raises
`ZeroDivisionError` in the segment-skip computation instead of returning
`[0]`, so the composite is not the identity on this valid key. -/
theorem rc4_involution_fails_zero_key :
    rc4Mk [0] = Except.ok ⟨[0], [0], 1⟩ ∧
      (rc4DecryptBytes ⟨[0], [0], 1⟩ [0] 0).bind
          (fun c => rc4DecryptBytes ⟨[0], [0], 1⟩ c 0) =
        Except.error PyErr.zeroDiv := by
  exact ⟨rfl, rfl⟩

/-- C7 (amended): the three XOR-keystream ciphers are involutions:
decrypting twice at the same offset returns the original buffer — for the
static and dynamic map ciphers unconditionally (the dynamic-map cipher
assumes a nonempty key: the Python code raises `ZeroDivisionError` on an
empty key), and for the RC4 cipher whenever the first call succeeds; when
the first call raises (possible for constructor-valid keys containing a
zero byte, see `rc4_involution_fails_zero_key`) the second call raises
identically and no buffer is returned. -/
theorem stream_ciphers_involution (dkey : List Nat) (hdk : 0 < dkey.length)
    (inst : RC4Inst) (bufS bufD bufR : List Nat) (offS offD offR : Nat) :
    staticDecrypt (staticDecrypt bufS offS) offS = bufS ∧
    dynDecrypt dkey (dynDecrypt dkey bufD offD) offD = bufD ∧
    (rc4DecryptBytes inst bufR offR).bind
        (fun c => rc4DecryptBytes inst c offR) =
      (rc4DecryptBytes inst bufR offR).map (fun _ => bufR) := by
  refine ⟨?_, ?_, ?_⟩
  · induction bufS generalizing offS with
    | nil => rfl
    | cons b rest ih =>
      simp [staticDecrypt, ih, Nat.xor_assoc]
  · induction bufD generalizing offD with
    | nil => rfl
    | cons b rest ih =>
      simp [dynDecrypt, ih, Nat.xor_assoc]
  · by_cases hb : bufR = []
    · subst hb
      cases h : rc4DecryptBytes inst [] offR with
      | error e => simp [Except.map, Bind.bind, Except.bind]
      | ok v =>
        have hv := rc4DecryptBytes_nil_ok inst offR v h
        subst hv
        simp [Except.map, Bind.bind, Except.bind, h]
    · have hT := rc4Decrypt_eq_keystream inst bufR offR hb
      cases hks : rc4KSRange inst offR bufR.length with
      | error e =>
        simp [rc4DecryptBytes, hT, hks, Except.map, Bind.bind, Except.bind]
      | ok ks =>
        have hlen : ks.length = bufR.length :=
          rc4KSRange_len inst _ _ _ hks
        have hClen : (zipXor bufR ks).length = bufR.length := by
          rw [zipXor_length, hlen]
          exact Nat.min_self _
        have hCne : zipXor bufR ks ≠ [] := by
          intro hcon
          rw [hcon] at hClen
          exact hb (List.length_eq_zero.mp hClen.symm)
        have hT2 := rc4Decrypt_eq_keystream inst (zipXor bufR ks) offR hCne
        rw [hClen, hks] at hT2
        simp only [rc4DecryptBytes, hT, hT2, hks, Except.map, Bind.bind,
          Except.bind]
        rw [zipXor_self_inverse bufR ks hlen.symm]

/-- Witness for `stream_ciphers_involution` at concrete keys, buffers and
offsets. -/
theorem stream_ciphers_involution_witness :
    staticDecrypt (staticDecrypt [1, 2, 3] 5) 5 = [1, 2, 3] ∧
    dynDecrypt [9, 4] (dynDecrypt [9, 4] [7, 8] 40000) 40000 = [7, 8] ∧
    (rc4DecryptBytes ⟨[1], [0], 1⟩ [5, 6] 127).bind
        (fun c => rc4DecryptBytes ⟨[1], [0], 1⟩ c 127) =
      (rc4DecryptBytes ⟨[1], [0], 1⟩ [5, 6] 127).map (fun _ => [5, 6]) :=
  stream_ciphers_involution [9, 4] (by decide) ⟨[1], [0], 1⟩ [1, 2, 3] [7, 8]
    [5, 6] 5 40000 127

/-! ### Claim C3: the segment-skip divisor and decrypt totality -/

/-- C3 (counterexample): the key `[0]` has nonzero length, so the
constructor accepts it (box `[0]`, hash 1), yet decrypt of a 1-byte buffer
at offset 0 fails: `seed = key[0] = 0` makes the segment-skip divisor
`(0 + 1) * 0 = 0` and the division raises `ZeroDivisionError`. -/
theorem rc4_zero_key_byte_fails :
    rc4Mk [0] = Except.ok ⟨[0], [0], 1⟩ ∧
      rc4DecryptBytes ⟨[0], [0], 1⟩ [0] 0 = Except.error PyErr.zeroDiv := by
  constructor
  · rfl
  · rfl

theorem rc4SegmentSkip_ok (inst : RC4Inst) (hL : 0 < inst.key.length)
    (hnz : ∀ b ∈ inst.key, b ≠ 0) (v : Nat) :
    ∃ s, rc4SegmentSkip inst v = Except.ok s := by
  have hmem : inst.key.getD (v % inst.key.length) 0 ∈ inst.key := by
    rw [List.getD_eq_getElem?_getD,
      List.getElem?_eq_getElem (Nat.mod_lt v hL)]
    exact List.getElem_mem _
  have hseed : inst.key.getD (v % inst.key.length) 0 ≠ 0 := hnz _ hmem
  have hseed' : ¬inst.key[v % inst.key.length]?.getD 0 = 0 := by
    simpa [List.getD_eq_getElem?_getD] using hseed
  refine ⟨pyDivMul100Floor inst.hashVal
    ((v + 1) * inst.key.getD (v % inst.key.length) 0) % inst.key.length, ?_⟩
  rw [rc4SegmentSkip]
  rw [if_neg (by omega)]
  rw [if_neg (by simp [hseed'])]

theorem rc4KS_ok (inst : RC4Inst) (hL : 0 < inst.key.length)
    (hnz : ∀ b ∈ inst.key, b ≠ 0) (p : Nat) :
    ∃ m, rc4KS inst p = Except.ok m := by
  rw [rc4KS]
  by_cases h : p < 128
  · obtain ⟨s, hs⟩ := rc4SegmentSkip_ok inst hL hnz p
    rw [if_pos h, hs]
    exact ⟨_, rfl⟩
  · obtain ⟨s, hs⟩ := rc4SegmentSkip_ok inst hL hnz (p / 5120)
    rw [if_neg h, hs]
    exact ⟨_, rfl⟩

theorem rc4KSRange_ok (inst : RC4Inst) (hL : 0 < inst.key.length)
    (hnz : ∀ b ∈ inst.key, b ≠ 0) :
    ∀ n off, ∃ l, rc4KSRange inst off n = Except.ok l ∧ l.length = n := by
  intro n
  induction n with
  | zero => intro off; exact ⟨[], rfl, rfl⟩
  | succ m ih =>
    intro off
    obtain ⟨v, hv⟩ := rc4KS_ok inst hL hnz off
    obtain ⟨l, hl, hlen⟩ := ih (off + 1)
    refine ⟨v :: l, ?_, by simp [hlen]⟩
    simp only [rc4KSRange, hv, hl, Bind.bind, Except.bind]

/-- C3 (amended): once a key of nonzero length with no zero bytes is
scheduled, `QMCv2_RC4Cipher.decrypt` completes without failure for every
buffer and offset, returning a same-length output; the segment-skip
divisor `(v + 1) * seed` is then never zero.  (The claim as frozen — any
nonzero-length key — is refuted by `rc4_zero_key_byte_fails`: a zero key
byte makes `seed` zero and decrypt raises `ZeroDivisionError`.) -/
theorem rc4_decrypt_total (inst : RC4Inst) (hL : 0 < inst.key.length)
    (hnz : ∀ b ∈ inst.key, b ≠ 0) (src : List Nat) (off : Nat) :
    ∃ out, rc4DecryptBytes inst src off = Except.ok out ∧
      out.length = src.length := by
  by_cases hne : src = []
  · subst hne
    refine ⟨[], ?_, rfl⟩
    rw [rc4DecryptBytes_nil]
    split
    · rfl
    · obtain ⟨s, hs⟩ := rc4SegmentSkip_ok inst hL hnz (off / 5120)
      rw [hs]
      rfl
  · obtain ⟨ks, hks, hlen⟩ := rc4KSRange_ok inst hL hnz src.length off
    refine ⟨zipXor src ks, ?_, ?_⟩
    · simp [rc4DecryptBytes, rc4Decrypt_eq_keystream inst src off hne, hks,
        Except.map]
    · rw [zipXor_length, hlen]
      exact Nat.min_self _

/-- Witness for `rc4_decrypt_total`: key `[1]` (all bytes nonzero),
decrypting a 2-byte buffer across the first 5120-byte boundary. -/
theorem rc4_decrypt_total_witness :
    ∃ out, rc4DecryptBytes ⟨[1], [0], 1⟩ [9, 9] 5119 = Except.ok out ∧
      out.length = ([9, 9] : List Nat).length :=
  rc4_decrypt_total ⟨[1], [0], 1⟩ (by decide) (by decide) [9, 9] 5119

/-! ### Claim C10: decrypt leaves the instance state unchanged -/

theorem rc4Decrypt_inst_unchanged (inst : RC4Inst) (src : List Nat)
    (off : Nat) (out : List Nat) (inst' : RC4Inst)
    (h : rc4Decrypt inst src off = Except.ok (out, inst')) : inst' = inst := by
  simp only [rc4Decrypt] at h
  by_cases h128 : off < 128
  · rw [if_pos h128] at h
    cases he : rc4Enc1st inst (src.take (min src.length (128 - off))) off with
    | error e =>
      rw [he] at h
      simp [Bind.bind, Except.bind] at h
    | ok dec =>
      rw [he] at h
      simp only [Bind.bind, Except.bind] at h
      split at h
      · simp only [Except.ok.injEq, Prod.mk.injEq] at h
        exact h.2.symm
      · cases hr : rc4DecryptRest inst (dec ++ src.drop
            (min src.length (128 - off))) (min src.length (128 - off))
            (off + min src.length (128 - off)) with
        | error e => rw [hr] at h; simp [Except.map] at h
        | ok l =>
          rw [hr] at h
          simp only [Except.map, Except.ok.injEq, Prod.mk.injEq] at h
          exact h.2.symm
  · rw [if_neg h128] at h
    cases hr : rc4DecryptRest inst src 0 off with
    | error e => rw [hr] at h; simp [Except.map] at h
    | ok l =>
      rw [hr] at h
      simp only [Except.map, Except.ok.injEq, Prod.mk.injEq] at h
      exact h.2.symm

/-- C10 (confirmed): every successful `QMCv2_RC4Cipher.decrypt` call
leaves the instance's scheduled permutation table and hash scalar exactly
as the constructor built them: the per-call box walk operates on
`self.box.copy()`, and the method never assigns to `self`. -/
theorem rc4_decrypt_preserves_box_hash (key src : List Nat) (off : Nat)
    (inst inst' : RC4Inst) (out : List Nat)
    (hmk : rc4Mk key = Except.ok inst)
    (h : rc4Decrypt inst src off = Except.ok (out, inst')) :
    inst'.box = rc4KSA key ∧ inst'.hashVal = rc4HashBase key := by
  have he := rc4Decrypt_inst_unchanged inst src off out inst' h
  subst he
  rw [rc4Mk] at hmk
  split at hmk
  · cases hmk
  · cases hmk
    exact ⟨rfl, rfl⟩

/-- Witness for `rc4_decrypt_preserves_box_hash` with key `[1]` and a
1-byte buffer. -/
theorem rc4_decrypt_preserves_box_hash_witness :
    (⟨[1], [0], 1⟩ : RC4Inst).box = rc4KSA [1] ∧
      (⟨[1], [0], 1⟩ : RC4Inst).hashVal = rc4HashBase [1] :=
  rc4_decrypt_preserves_box_hash [1] [7] 0 ⟨[1], [0], 1⟩ ⟨[1], [0], 1⟩ [6]
    (by decide) (by decide)
